import Mathlib

/-!
# Singly linked list (`test_samples/cpp_linked_list.cpp`)

A shallow embedding of the C++ class template `LinkedList<T>`.

* Cells live in a free store; a `std::shared_ptr<Node<T>>` is an optional
  address into the store (`none` is `nullptr`).
* Every dereference is explicit and fallible: dereferencing `nullptr` or an
  address outside the store is a fault, so the member functions return
  `Except Fault _`.
* `while` loops carry fuel; the member functions supply one unit of fuel more
  than the store has cells, which is exactly what every terminating traversal
  of a store of that many cells needs. Running out of fuel is reported as the
  fault `diverge`.
* `size_t` is a natural number kept below `2 ^ SIZE_BITS` by explicit
  reduction after every `size++` and `size--`.
* Cells that are no longer owned stay in the store, where nothing can reach
  them any more; the store is append-only, and `std::make_shared` fails with
  `std::bad_alloc` once every non-null address is taken.
* A cell is destroyed by `~Node`, which releases the cell's `next` inside
  itself, so that releasing the head of a chain nests one destructor call per
  cell. `clear` takes the number `depth` of nested `~Node` calls the call stack
  has room for and ends in the fault `stackOverflow` on a longer chain. The
  constant stack use of the other member functions, the single `~Node` call of
  `deleteValue` included, is taken for granted.
* The element type `T` has a decidable equality, which stands for both
  `operator==` and the negation of `operator!=`.
* `display` returns the items it writes to `std::cout`, in order; the textual
  form `operator<<` gives an element is a parameter.
* Ownership is studied in a `World` of several list objects over one store. A
  cell is live when some list reaches it, which is when its `shared_ptr`
  reference count is positive, and its owners are the list headers and the
  live cells that point to it.
-/

namespace LinkedListModel

/-- Width in bits of `size_t` and of an address. -/
def SIZE_BITS : Nat := 64

/-- Number of values of type `size_t`. -/
def SIZE_MOD : Nat := 2 ^ SIZE_BITS

/-- Largest number of cells the free store can hold: addresses are
`SIZE_BITS`-bit words and one of them is `nullptr`. -/
def MAX_CELLS : Nat := SIZE_MOD - 1

/-- Ways in which a member function can fail to return normally. -/
inductive Fault where
  /-- `std::make_shared` threw `std::bad_alloc`. -/
  | badAlloc
  /-- A null pointer was dereferenced. -/
  | nullDeref
  /-- A pointer to no cell of the store was dereferenced. -/
  | dangling
  /-- A loop did not terminate. -/
  | diverge
  /-- The call stack had no room for one more nested call. -/
  | stackOverflow
  deriving DecidableEq, Repr

/-- The cell type `struct Node`: the stored element and the link to the next cell. -/
structure Node (T : Type) where
  data : T
  next : Option Nat
  deriving DecidableEq, Repr

/-- The free store: the cell at address `a` is the `a`-th entry. -/
abbrev Store (T : Type) := List (Node T)

/-- The data members of `class LinkedList`. -/
structure LinkedList where
  head : Option Nat
  size : Nat
  deriving DecidableEq, Repr

/-- A list object together with the free store its cells live in. -/
structure State (T : Type) where
  heap : Store T
  list : LinkedList
  deriving DecidableEq, Repr

/-- The constructor `LinkedList() : head(nullptr), size(0) {}`. -/
def LinkedList.new : LinkedList := { head := none, size := 0 }

/-- A newly constructed list in an empty free store. -/
def State.init (T : Type) : State T := { heap := [], list := LinkedList.new }

/-- The statement `size++` on a `size_t`: the successor modulo `2 ^ SIZE_BITS`. -/
def sizeInc (n : Nat) : Nat := (n + 1) % SIZE_MOD

/-- The statement `size--` on a `size_t`: the predecessor modulo `2 ^ SIZE_BITS`, so that
`0` wraps around to `2 ^ SIZE_BITS - 1`; see `sizeDec_eq_mod`. -/
def sizeDec : Nat → Nat
  | 0 => SIZE_MOD - 1
  | n + 1 => n % SIZE_MOD

/-- Dereference `*p` / `p->`: the cell a pointer refers to. -/
def deref {T : Type} (st : Store T) : Option Nat → Except Fault (Node T)
  | none => .error .nullDeref
  | some a =>
    match st[a]? with
    | some n => .ok n
    | none => .error .dangling

/-- The assignment `p->next = q`. -/
def setNext {T : Type} (st : Store T) (p q : Option Nat) : Except Fault (Store T) :=
  match p with
  | none => .error .nullDeref
  | some a =>
    match st[a]? with
    | some n => .ok (st.set a { n with next := q })
    | none => .error .dangling

/-- The call `std::make_shared<Node<T>>(value)`: a fresh cell holding `value` whose
`next` is `nullptr`, or `std::bad_alloc` when the store is full. -/
def make_shared {T : Type} (st : Store T) (value : T) : Except Fault (Store T × Option Nat) :=
  if st.length < MAX_CELLS then
    .ok (st ++ [{ data := value, next := none }], some st.length)
  else
    .error .badAlloc

/-- The member function `void insertHead(const T& value)`. -/
def insertHead {T : Type} (value : T) (s : State T) : Except Fault (State T) := do
  let (st, newNode) ← make_shared s.heap value
  let st ← setNext st newNode s.list.head
  pure { heap := st, list := { head := newNode, size := sizeInc s.list.size } }

/-- The loop of `insertTail`: `while (current->next) current = current->next;`
returning the final `current`. -/
def insertTail.loop {T : Type} (st : Store T) : Nat → Option Nat → Except Fault (Option Nat)
  | 0, _ => .error .diverge
  | fuel + 1, current => do
    let c ← deref st current
    match c.next with
    | some _ => insertTail.loop st fuel c.next
    | none => pure current

/-- The member function `void insertTail(const T& value)`. -/
def insertTail {T : Type} (value : T) (s : State T) : Except Fault (State T) := do
  let (st, newNode) ← make_shared s.heap value
  match s.list.head with
  | none =>
    pure { heap := st, list := { head := newNode, size := sizeInc s.list.size } }
  | some _ =>
    let current ← insertTail.loop st (st.length + 1) s.list.head
    let st ← setNext st current newNode
    pure { heap := st, list := { head := s.list.head, size := sizeInc s.list.size } }

/-- The loop of `deleteValue`:
`while (current->next && current->next->data != value) current = current->next;`
returning the final `current`. -/
def deleteValue.loop {T : Type} [DecidableEq T] (value : T) (st : Store T) :
    Nat → Option Nat → Except Fault (Option Nat)
  | 0, _ => .error .diverge
  | fuel + 1, current => do
    let c ← deref st current
    match c.next with
    | none => pure current
    | some _ =>
      let nx ← deref st c.next
      if nx.data ≠ value then deleteValue.loop value st fuel c.next
      else pure current

/-- The member function `bool deleteValue(const T& value)`. -/
def deleteValue {T : Type} [DecidableEq T] (value : T) (s : State T) :
    Except Fault (Bool × State T) :=
  match s.list.head with
  | none => pure (false, s)
  | some _ => do
    let h ← deref s.heap s.list.head
    if h.data = value then
      pure (true, { heap := s.heap, list := { head := h.next, size := sizeDec s.list.size } })
    else
      let current ← deleteValue.loop value s.heap (s.heap.length + 1) s.list.head
      let c ← deref s.heap current
      match c.next with
      | some _ =>
        let nx ← deref s.heap c.next
        let st ← setNext s.heap current nx.next
        pure (true, { heap := st, list := { head := s.list.head, size := sizeDec s.list.size } })
      | none => pure (false, s)

/-- The loop of `search`. -/
def search.loop {T : Type} [DecidableEq T] (value : T) (st : Store T) :
    Nat → Option Nat → Except Fault Bool
  | 0, _ => .error .diverge
  | _ + 1, none => pure false
  | fuel + 1, some a => do
    let c ← deref st (some a)
    if c.data = value then pure true
    else search.loop value st fuel c.next

/-- The member function `bool search(const T& value) const`. -/
def search {T : Type} [DecidableEq T] (value : T) (s : State T) : Except Fault Bool :=
  search.loop value s.heap (s.heap.length + 1) s.list.head

/-- The member function `size_t getSize() const`. -/
def getSize {T : Type} (s : State T) : Nat := s.list.size

/-- The member function `bool isEmpty() const`. -/
def isEmpty {T : Type} (s : State T) : Bool := s.list.head == none

/-- The release of a `shared_ptr` that is the only owner of its cell: `~Node`
runs for the cell and, inside it, the data member `next` is released in the
same way, one nested call per cell. `depth` is the number of nested `~Node`
calls the call stack still has room for; a null pointer releases nothing. -/
def release {T : Type} (st : Store T) : Nat → Option Nat → Except Fault Unit
  | _, none => pure ()
  | 0, some _ => .error .stackOverflow
  | depth + 1, some a => do
    let c ← deref st (some a)
    release st depth c.next

/-- The member function `void clear()`: `head = nullptr` releases the first
cell, and with it the whole chain, before `size = 0`. The list is the only
owner of its cells; the cells it destroys stay in the store, out of reach. -/
def clear {T : Type} (depth : Nat) (s : State T) : Except Fault (State T) := do
  release s.heap depth s.list.head
  pure { heap := s.heap, list := { head := none, size := 0 } }

/-- Full traversal from a pointer, as in the loop of `display`:
`while (current) { ... current->data ...; current = current->next; }`,
collecting the address and the element of every cell visited. -/
def traverse {T : Type} (st : Store T) : Nat → Option Nat → Except Fault (List (Nat × T))
  | 0, _ => .error .diverge
  | _ + 1, none => pure []
  | fuel + 1, some a => do
    let c ← deref st (some a)
    let rest ← traverse st fuel c.next
    pure ((a, c.data) :: rest)

/-- The cells of the list in traversal order, as address and element. -/
def cells {T : Type} (s : State T) : Except Fault (List (Nat × T)) :=
  traverse s.heap (s.heap.length + 1) s.list.head

/-- The contents of the list in traversal order. -/
def contents {T : Type} (s : State T) : Except Fault (List T) :=
  (cells s).map (List.map Prod.snd)

/-- The loop of `display`, returning the items written to `std::cout`, in
order: `while (current) { std::cout << current->data;
if (current->next) std::cout << " -> "; current = current->next; }`.
The textual form `operator<<` gives an element is `render`. -/
def display.loop {T : Type} (render : T → String) (st : Store T) :
    Nat → Option Nat → Except Fault (List String)
  | 0, _ => .error .diverge
  | _ + 1, none => pure []
  | fuel + 1, some a => do
    let c ← deref st (some a)
    let sep := match c.next with
      | some _ => [" -> "]
      | none => []
    let rest ← display.loop render st fuel c.next
    pure (render c.data :: (sep ++ rest))

/-- The member function `void display() const`: the items written to
`std::cout`, in order, where `std::endl` writes a line feed, and the state
afterwards; the body assigns neither to a data member nor to a cell. -/
def display {T : Type} (render : T → String) (s : State T) :
    Except Fault (List String × State T) :=
  match s.list.head with
  | none => pure (["List is empty", "\n"], s)
  | some _ => do
    let items ← display.loop render s.heap (s.heap.length + 1) s.list.head
    pure (items ++ ["\n"], s)

deriving instance DecidableEq for Except

/-- A call of one of the mutating member functions. -/
inductive Op (T : Type) where
  | insertHead (value : T)
  | insertTail (value : T)
  | deleteValue (value : T)
  | clear
  deriving DecidableEq, Repr

/-- One call, on a call stack with room for `depth` nested `~Node` calls; the
value returned by `deleteValue` is dropped. -/
def step {T : Type} [DecidableEq T] (depth : Nat) : Op T → State T → Except Fault (State T)
  | .insertHead v, s => insertHead v s
  | .insertTail v, s => insertTail v s
  | .deleteValue v, s => do
    let r ← deleteValue v s
    pure r.2
  | .clear, s => clear depth s

/-- A finite sequence of calls, made in order; a fault ends the run. -/
def run {T : Type} [DecidableEq T] (depth : Nat) :
    List (Op T) → State T → Except Fault (State T)
  | [], s => pure s
  | op :: ops, s => do
    let s2 ← step depth op s
    run depth ops s2

/-- A finite sequence of calls, made in order, that also counts, on top of the
initial `k` and `j`, the insertions made and the `deleteValue` calls that
returned `true`. -/
def runTally {T : Type} [DecidableEq T] (depth : Nat) :
    List (Op T) → State T → Nat → Nat → Except Fault (State T × Nat × Nat)
  | [], s, k, j => pure (s, k, j)
  | .insertHead v :: ops, s, k, j => do
    let s2 ← insertHead v s
    runTally depth ops s2 (k + 1) j
  | .insertTail v :: ops, s, k, j => do
    let s2 ← insertTail v s
    runTally depth ops s2 (k + 1) j
  | .deleteValue v :: ops, s, k, j => do
    let r ← deleteValue v s
    runTally depth ops r.2 k (if r.1 then j + 1 else j)
  | .clear :: ops, s, k, j => do
    let s2 ← clear depth s
    runTally depth ops s2 k j

/-- The call `deleteValue(value)` repeated `n` times. -/
def deleteValueTimes {T : Type} [DecidableEq T] (value : T) :
    Nat → State T → Except Fault (State T)
  | 0, s => pure s
  | n + 1, s => do
    let r ← deleteValue value s
    deleteValueTimes value n r.2

/-- A sample state: the list `[1, 7, 2, 7]` laid out out of order in a store
that also holds a cell which is no longer reachable. -/
def sampleDup : State Int :=
  { heap := [⟨7, none⟩, ⟨9, some 0⟩, ⟨1, some 4⟩, ⟨2, some 0⟩, ⟨7, some 3⟩],
    list := { head := some 2, size := 4 } }

/-- The state `clear()` leaves `scenarioEnd` in: the empty list, with the
released cells still in the store. -/
def scenarioCleared : State Int :=
  { heap := [⟨3, some 3⟩, ⟨2, some 3⟩, ⟨1, some 1⟩, ⟨4, some 4⟩, ⟨5, none⟩],
    list := { head := none, size := 0 } }

/-- The state `deleteValue(7)` leaves `sampleDup` in: the list `[1, 2, 7]`. -/
def sampleDupDeleted : State Int :=
  { heap := [⟨7, none⟩, ⟨9, some 0⟩, ⟨1, some 3⟩, ⟨2, some 0⟩, ⟨7, some 3⟩],
    list := { head := some 2, size := 3 } }

/-- The calls of `runTests`, with one `deleteValue` of a value that is not in
the list added. -/
def scenarioOps : List (Op Int) :=
  [.insertHead 3, .insertHead 2, .insertHead 1, .insertTail 4, .insertTail 5,
   .deleteValue 3, .deleteValue 10, .deleteValue 1]

/-- The state `scenarioOps` leads to from a new list: the list `[2, 4, 5]`. -/
def scenarioEnd : State Int :=
  { heap := [⟨3, some 3⟩, ⟨2, some 3⟩, ⟨1, some 1⟩, ⟨4, some 4⟩, ⟨5, none⟩],
    list := { head := some 1, size := 3 } }

/-- The implicitly defined copy constructor `LinkedList(const LinkedList&)`:
the class declares no copy operation, so a copy is made member by member, and
copying `head` makes the new list one more owner of the same first cell. -/
def LinkedList.copy (l : LinkedList) : LinkedList := { head := l.head, size := l.size }

/-- Several list objects over one free store; a list object is referred to by
its position in `lists`. -/
structure World (T : Type) where
  heap : Store T
  lists : List LinkedList
  deriving DecidableEq, Repr

/-- No list object and an empty free store. -/
def World.init (T : Type) : World T := { heap := [], lists := [] }

/-- What a program does with list objects: it constructs a new one, it
copy-constructs one from the list at position `i`, or it calls a mutating
member function on the list at position `i`. -/
inductive WOp (T : Type) where
  | construct
  | copy (i : Nat)
  | call (i : Nat) (op : Op T)
  deriving DecidableEq, Repr

/-- Whether the operation copies a list. -/
def WOp.isCopy {T : Type} : WOp T → Bool
  | .copy _ => true
  | _ => false

/-- The addresses of the cells met when following `next` links from a
pointer, for at most `fuel` cells. -/
def reach {T : Type} (st : Store T) : Nat → Option Nat → List Nat
  | 0, _ => []
  | _ + 1, none => []
  | fuel + 1, some a =>
    match st[a]? with
    | some c => a :: reach st fuel c.next
    | none => []

/-- The addresses of the cells reachable from the list at position `i`. -/
def World.reachFrom {T : Type} (w : World T) (i : Nat) : List Nat :=
  match w.lists[i]? with
  | some l => reach w.heap w.heap.length l.head
  | none => []

/-- A cell is live when some list reaches it; a cell no list reaches has been
destroyed by the `shared_ptr` that released it last. -/
def World.live {T : Type} (w : World T) (a : Nat) : Prop :=
  ∃ i, i < w.lists.length ∧ a ∈ w.reachFrom i

instance {T : Type} (w : World T) (a : Nat) : Decidable (w.live a) := by
  unfold World.live
  infer_instance

/-- What can own a cell: the data member `head` of the list at position `i`,
or the data member `next` of the cell at address `b`. -/
inductive Owner where
  | header (i : Nat)
  | cell (b : Nat)
  deriving DecidableEq, Repr

/-- The owner `o` holds a `shared_ptr` to the cell at address `a`. -/
def World.Owns {T : Type} (w : World T) : Owner → Nat → Prop
  | .header i, a => w.lists[i]?.bind LinkedList.head = some a
  | .cell b, a => w.live b ∧ w.heap[b]?.bind Node.next = some a

instance {T : Type} (w : World T) (o : Owner) (a : Nat) : Decidable (w.Owns o a) := by
  cases o <;> unfold World.Owns <;> infer_instance

/-- Every owner there can be in the world. -/
def World.owners {T : Type} (w : World T) : List Owner :=
  (List.range w.lists.length).map Owner.header ++ (List.range w.heap.length).map Owner.cell

/-- Whether the cell at address `a` has an owner other than `o`, so that its
reference count stays positive when `o` releases it. -/
def World.otherOwner {T : Type} (w : World T) (o : Owner) (a : Nat) : Bool :=
  w.owners.any (fun o2 => decide (o2 ≠ o ∧ w.Owns o2 a))

/-- The release by the owner `o` of its `shared_ptr`: a cell that has another
owner lives on; otherwise `~Node` runs for it and, inside it, the cell
releases its `next` in the same way. `depth` is the number of nested `~Node`
calls the call stack still has room for. -/
def World.release {T : Type} (w : World T) : Nat → Owner → Option Nat → Except Fault Unit
  | _, _, none => pure ()
  | 0, o, some a =>
    if w.otherOwner o a then pure () else .error .stackOverflow
  | depth + 1, o, some a =>
    if w.otherOwner o a then pure ()
    else do
      let c ← deref w.heap (some a)
      World.release w depth (Owner.cell a) c.next

/-- One operation on the world, on a call stack with room for `depth` nested
`~Node` calls; the new object of a construction goes to the end of `lists`,
and naming a position that holds no list object is a fault. A `clear()`
destroys only the cells no other list owns. -/
def wstep {T : Type} [DecidableEq T] (depth : Nat) :
    WOp T → World T → Except Fault (World T)
  | .construct, w => pure { heap := w.heap, lists := w.lists ++ [LinkedList.new] }
  | .copy i, w =>
    match w.lists[i]? with
    | some l => pure { heap := w.heap, lists := w.lists ++ [l.copy] }
    | none => .error .dangling
  | .call i .clear, w =>
    match w.lists[i]? with
    | some l => do
      World.release w depth (Owner.header i) l.head
      pure { heap := w.heap, lists := w.lists.set i { head := none, size := 0 } }
    | none => .error .dangling
  | .call i op, w =>
    match w.lists[i]? with
    | some l => do
      let s ← step depth op { heap := w.heap, list := l }
      pure { heap := s.heap, lists := w.lists.set i s.list }
    | none => .error .dangling

/-- A finite sequence of operations on the world, made in order. -/
def wrun {T : Type} [DecidableEq T] (depth : Nat) :
    List (WOp T) → World T → Except Fault (World T)
  | [], w => pure w
  | op :: ops, w => do
    let w2 ← wstep depth op w
    wrun depth ops w2

/-- Strict ownership: no cell is reachable from two different lists, and every
live cell has exactly one owner. -/
def World.SingleOwner {T : Type} (w : World T) : Prop :=
  (∀ (i j a : Nat), i ≠ j → a ∈ w.reachFrom i → a ∉ w.reachFrom j) ∧
  (∀ a : Nat, w.live a → ∃! o, w.Owns o a)

/-- The owner that strict ownership gives the cell at index `k` of the chain
`chain` of the list at position `i`: the list header for the first cell, the
cell before it otherwise. -/
def ownerAt (i : Nat) (chain : List Nat) : Nat → Option Owner
  | 0 => some (Owner.header i)
  | t + 1 => chain[t]?.map Owner.cell

/-- A sample program on two lists `a` and `b` that copies neither:
`a.insertHead(1); b.insertTail(2); a.insertTail(3); b.insertHead(4);
a.deleteValue(1);`. -/
def twoListProgram : List (WOp Int) :=
  [.construct, .construct, .call 0 (.insertHead 1), .call 1 (.insertTail 2),
   .call 0 (.insertTail 3), .call 1 (.insertHead 4), .call 0 (.deleteValue 1)]

/-- The world `twoListProgram` leads to: the lists `[3]` and `[4, 2]`, and at
address `0` the cell that `deleteValue` released. -/
def twoListWorld : World Int :=
  { heap := [⟨1, some 2⟩, ⟨2, none⟩, ⟨3, none⟩, ⟨4, some 1⟩],
    lists := [⟨some 2, 1⟩, ⟨some 3, 2⟩] }

/-- A sample program: `LinkedList<int> a; a.insertHead(1); LinkedList<int> b(a);`. -/
def copyProgram : List (WOp Int) :=
  [.construct, .call 0 (.insertHead 1), .copy 0]

/-- The world `copyProgram` leads to: both lists own the cell at address `0`. -/
def copyWorld : World Int :=
  { heap := [⟨1, none⟩], lists := [⟨some 0, 1⟩, ⟨some 0, 1⟩] }

/-- The chain segment `Seg st p cs q`: following `next` links in the store `st` from the
pointer `p` visits exactly the cells `cs` (address and element, in order) and
arrives at the pointer `q`. -/
inductive Seg {T : Type} (st : Store T) : Option Nat → List (Nat × T) → Option Nat → Prop
  | nil (p : Option Nat) : Seg st p [] p
  | cons (a : Nat) (v : T) (nx : Option Nat) (cs : List (Nat × T)) (q : Option Nat) :
      st[a]? = some (Node.mk v nx) → Seg st nx cs q → Seg st (some a) ((a, v) :: cs) q

/-- The structural invariant of a list state: the store respects the address
space, the chain from `head` ends at `nullptr` after the cells `cs`, and the
cached `size` is the number of those cells. -/
def Inv {T : Type} (s : State T) (cs : List (Nat × T)) : Prop :=
  s.heap.length ≤ MAX_CELLS ∧ Seg s.heap s.list.head cs none ∧ s.list.size = cs.length

/-- A list state whose contents, in traversal order, are `xs`: the store
respects the address space, a full traversal from `head` terminates and yields
`xs`, and `getSize()` is the number of elements. -/
def HasContents {T : Type} (s : State T) (xs : List T) : Prop :=
  s.heap.length ≤ MAX_CELLS ∧ contents s = .ok xs ∧ getSize s = xs.length

instance {T : Type} [DecidableEq T] (s : State T) (xs : List T) :
    Decidable (HasContents s xs) := by
  unfold HasContents
  infer_instance

/-- The invariant of a world built without copying: the store respects the
address space, every list object is a list state, and no two list objects
reach a common cell. -/
def WInv {T : Type} (w : World T) : Prop :=
  w.heap.length ≤ MAX_CELLS ∧
  (∀ (i : Nat) (l : LinkedList), w.lists[i]? = some l → ∃ cs, Inv (State.mk w.heap l) cs) ∧
  (∀ (i j a : Nat), i ≠ j → a ∈ w.reachFrom i → a ∉ w.reachFrom j)

/-! ## Chains in the store -/

section Chains

variable {T : Type}

theorem seg_nil (st : Store T) (p q : Option Nat) : Seg st p [] q ↔ p = q := by
  constructor
  · intro h
    cases h
    rfl
  · rintro rfl
    exact Seg.nil _

theorem seg_cons (st : Store T) (c : Nat × T) (cs : List (Nat × T)) (p q : Option Nat) :
    Seg st p (c :: cs) q ↔
      p = some c.1 ∧ ∃ nx, st[c.1]? = some (Node.mk c.2 nx) ∧ Seg st nx cs q := by
  constructor
  · intro h
    cases h with
    | cons a v nx _ _ h1 h2 => exact ⟨rfl, nx, h1, h2⟩
  · rintro ⟨rfl, nx, h1, h2⟩
    obtain ⟨a, v⟩ := c
    exact Seg.cons a v nx cs q h1 h2

theorem seg_append (st : Store T) : ∀ (c1 c2 : List (Nat × T)) (p q : Option Nat),
    Seg st p (c1 ++ c2) q ↔ ∃ m, Seg st p c1 m ∧ Seg st m c2 q
  | [], c2, p, q => by simp [seg_nil]
  | c :: c1, c2, p, q => by
    simp only [List.cons_append, seg_cons, seg_append st c1 c2]
    constructor
    · rintro ⟨hp, nx, hnx, m, h1, h2⟩
      exact ⟨m, ⟨hp, nx, hnx, h1⟩, h2⟩
    · rintro ⟨m, ⟨hp, nx, hnx, h1⟩, h2⟩
      exact ⟨hp, nx, hnx, m, h1, h2⟩

theorem seg_det (st : Store T) : ∀ (cs ds : List (Nat × T)) (p : Option Nat),
    Seg st p cs none → Seg st p ds none → cs = ds
  | [], [], _, _, _ => rfl
  | [], d :: ds, p, h, k => by
    rw [seg_nil] at h
    rw [seg_cons] at k
    rw [h] at k
    exact absurd k.1 (by simp)
  | c :: cs, [], p, h, k => by
    rw [seg_cons] at h
    rw [seg_nil] at k
    rw [k] at h
    exact absurd h.1 (by simp)
  | c :: cs, d :: ds, p, h, k => by
    rw [seg_cons] at h k
    obtain ⟨hp, nx, hnx, hs⟩ := h
    obtain ⟨kp, ny, hny, ks⟩ := k
    have hcd : c.1 = d.1 := by
      rw [hp] at kp
      exact Option.some.inj kp
    rw [hcd, hny] at hnx
    have hn := Option.some.inj hnx
    have h2 : d.2 = c.2 := congrArg Node.data hn
    have h3 : ny = nx := congrArg Node.next hn
    subst h3
    rw [seg_det st cs ds ny hs ks]
    congr 1
    exact Prod.ext hcd h2.symm

theorem seg_addr_lt (st : Store T) : ∀ (cs : List (Nat × T)) (p q : Option Nat),
    Seg st p cs q → ∀ a ∈ cs.map Prod.fst, a < st.length
  | [], _, _, _ => by simp
  | c :: cs, p, q, h => by
    rw [seg_cons] at h
    obtain ⟨_, nx, hnx, hs⟩ := h
    intro a ha
    simp only [List.map_cons, List.mem_cons] at ha
    rcases ha with rfl | ha
    · by_contra hlt
      rw [List.getElem?_eq_none (Nat.le_of_not_lt hlt)] at hnx
      exact absurd hnx (by simp)
    · exact seg_addr_lt st cs nx q hs a ha

theorem seg_nodup (st : Store T) : ∀ (cs : List (Nat × T)) (p : Option Nat),
    Seg st p cs none → (cs.map Prod.fst).Nodup
  | [], _, _ => by simp
  | c :: cs, p, h => by
    rw [seg_cons] at h
    obtain ⟨_, nx, hnx, hs⟩ := h
    rw [List.map_cons, List.nodup_cons]
    refine ⟨?_, seg_nodup st cs nx hs⟩
    intro hmem
    obtain ⟨d, hd, hdc⟩ := List.mem_map.mp hmem
    obtain ⟨l1, l2, hsplit⟩ := List.append_of_mem hd
    rw [hsplit, seg_append] at hs
    obtain ⟨m, _, hm⟩ := hs
    have hm2 := hm
    rw [seg_cons] at hm
    obtain ⟨hmd, _⟩ := hm
    have hstart : Seg st (some d.1) (c :: cs) none := by
      rw [seg_cons]
      refine ⟨?_, nx, hnx, ?_⟩
      · rw [hdc]
      · rw [hsplit, seg_append]
        exact ⟨m, by assumption, hm2⟩
    rw [hmd] at hm2
    have heq := seg_det st _ _ _ hm2 hstart
    have hlen := congrArg List.length heq
    rw [hsplit] at hlen
    simp at hlen
    omega

theorem seg_length_le (st : Store T) (cs : List (Nat × T)) (p : Option Nat)
    (h : Seg st p cs none) : cs.length ≤ st.length := by
  have hnd := seg_nodup st cs p h
  have hlt := seg_addr_lt st cs p none h
  have hsub : (cs.map Prod.fst).toFinset ⊆ Finset.range st.length := by
    intro a ha
    rw [List.mem_toFinset] at ha
    exact Finset.mem_range.mpr (hlt a ha)
  have hcard := Finset.card_le_card hsub
  rw [List.toFinset_card_of_nodup hnd, Finset.card_range, List.length_map] at hcard
  exact hcard

theorem seg_none_start (st : Store T) (cs : List (Nat × T)) (q : Option Nat)
    (h : Seg st none cs q) : cs = [] := by
  cases cs with
  | nil => rfl
  | cons c cs => exact absurd ((seg_cons _ _ _ _ _).mp h).1 (by simp)

theorem seg_set_frame (st : Store T) (b : Nat) (n : Node T) :
    ∀ (cs : List (Nat × T)) (p q : Option Nat),
    b ∉ cs.map Prod.fst → Seg st p cs q → Seg (st.set b n) p cs q
  | [], _, _, _, h => (seg_nil _ _ _).mpr ((seg_nil _ _ _).mp h)
  | c :: cs, p, q, hb, h => by
    rw [seg_cons] at h ⊢
    obtain ⟨hp, nx, hnx, hs⟩ := h
    simp only [List.map_cons, List.mem_cons, not_or] at hb
    refine ⟨hp, nx, ?_, seg_set_frame st b n cs nx q hb.2 hs⟩
    rw [List.getElem?_set_ne hb.1]
    exact hnx

theorem seg_grow (st ext : Store T) : ∀ (cs : List (Nat × T)) (p q : Option Nat),
    Seg st p cs q → Seg (st ++ ext) p cs q
  | [], _, _, h => (seg_nil _ _ _).mpr ((seg_nil _ _ _).mp h)
  | c :: cs, p, q, h => by
    have hlt := seg_addr_lt st (c :: cs) p q h c.1 (by simp)
    rw [seg_cons] at h ⊢
    obtain ⟨hp, nx, hnx, hs⟩ := h
    refine ⟨hp, nx, ?_, seg_grow st ext cs nx q hs⟩
    rw [List.getElem?_append_left hlt]
    exact hnx

theorem deref_some (st : Store T) (a : Nat) (n : Node T) (h : st[a]? = some n) :
    deref st (some a) = .ok n := by
  simp [deref, h]

theorem deref_ok (st : Store T) (p : Option Nat) (n : Node T) (h : deref st p = .ok n) :
    ∃ a, p = some a ∧ st[a]? = some n := by
  cases p with
  | none => simp [deref] at h
  | some a =>
    refine ⟨a, rfl, ?_⟩
    unfold deref at h
    cases hst : st[a]? with
    | none => simp [hst] at h
    | some m =>
      simp only [hst] at h
      rw [Except.ok.injEq] at h
      rw [h]

theorem traverse_sound (st : Store T) : ∀ (fuel : Nat) (p : Option Nat) (cs : List (Nat × T)),
    traverse st fuel p = .ok cs → Seg st p cs none ∧ cs.length < fuel
  | 0, _, _, h => by simp [traverse] at h
  | fuel + 1, none, cs, h => by
    simp only [traverse, pure, Except.pure, Except.ok.injEq] at h
    subst h
    exact ⟨Seg.nil _, Nat.succ_pos _⟩
  | fuel + 1, some a, cs, h => by
    simp only [traverse, bind, Except.bind] at h
    cases hd : deref st (some a) with
    | error e => simp [hd] at h
    | ok c =>
      simp only [hd] at h
      cases hr : traverse st fuel c.next with
      | error e => simp [hr] at h
      | ok rest =>
        simp only [hr, pure, Except.pure, Except.ok.injEq] at h
        subst h
        obtain ⟨hs, hl⟩ := traverse_sound st fuel c.next rest hr
        obtain ⟨b, hb, hc⟩ := deref_ok st _ _ hd
        cases hb
        exact ⟨Seg.cons a c.data c.next rest none hc hs, Nat.succ_lt_succ hl⟩

theorem traverse_complete (st : Store T) : ∀ (fuel : Nat) (p : Option Nat) (cs : List (Nat × T)),
    Seg st p cs none → cs.length < fuel → traverse st fuel p = .ok cs
  | 0, _, _, _, hl => absurd hl (Nat.not_lt_zero _)
  | fuel + 1, p, [], h, _ => by
    rw [seg_nil] at h
    subst h
    rfl
  | fuel + 1, p, c :: cs, h, hl => by
    rw [seg_cons] at h
    obtain ⟨hp, nx, hnx, hs⟩ := h
    subst hp
    have hr := traverse_complete st fuel nx cs hs (Nat.lt_of_succ_lt_succ hl)
    simp only [traverse, bind, Except.bind, deref_some st c.1 _ hnx, hr, pure, Except.pure]

theorem cells_ok_iff (s : State T) (cs : List (Nat × T)) :
    cells s = .ok cs ↔ Seg s.heap s.list.head cs none := by
  constructor
  · intro h
    exact (traverse_sound _ _ _ _ h).1
  · intro h
    exact traverse_complete _ _ _ _ h (Nat.lt_succ_of_le (seg_length_le _ _ _ h))

theorem contents_ok_iff (s : State T) (xs : List T) :
    contents s = .ok xs ↔ ∃ cs, Seg s.heap s.list.head cs none ∧ cs.map Prod.snd = xs := by
  unfold contents
  constructor
  · intro h
    cases hc : cells s with
    | error e => simp [hc, Except.map] at h
    | ok cs =>
      simp only [hc, Except.map, Except.ok.injEq] at h
      exact ⟨cs, (cells_ok_iff s cs).mp hc, h⟩
  · rintro ⟨cs, hs, rfl⟩
    rw [(cells_ok_iff s cs).mpr hs]
    rfl

theorem hasContents_iff (s : State T) (xs : List T) :
    HasContents s xs ↔ ∃ cs, Inv s cs ∧ cs.map Prod.snd = xs := by
  unfold HasContents Inv getSize
  rw [contents_ok_iff]
  constructor
  · rintro ⟨hm, ⟨cs, hs, rfl⟩, hz⟩
    exact ⟨cs, ⟨hm, hs, by simpa using hz⟩, rfl⟩
  · rintro ⟨cs, ⟨hm, hs, hz⟩, rfl⟩
    exact ⟨hm, ⟨cs, hs, rfl⟩, by simpa using hz⟩

end Chains

/-! ## Arithmetic of the size field -/

theorem max_cells_succ : MAX_CELLS + 1 = SIZE_MOD := by decide

theorem sizeInc_eq (n : Nat) (h : n < MAX_CELLS) : sizeInc n = n + 1 := by
  unfold sizeInc
  have := max_cells_succ
  exact Nat.mod_eq_of_lt (by omega)

theorem sizeDec_eq_mod (n : Nat) : sizeDec n = (n + SIZE_MOD - 1) % SIZE_MOD := by
  have hpos : 0 < SIZE_MOD := by decide
  cases n with
  | zero =>
    simp only [sizeDec, Nat.zero_add]
    exact (Nat.mod_eq_of_lt (by omega)).symm
  | succ k =>
    have e : k + 1 + SIZE_MOD - 1 = k + SIZE_MOD := by omega
    simp only [sizeDec]
    rw [e, Nat.add_mod_right]

theorem sizeDec_eq (n : Nat) (h : n ≤ MAX_CELLS) (h0 : 0 < n) : sizeDec n = n - 1 := by
  have := max_cells_succ
  cases n with
  | zero => exact absurd h0 (Nat.lt_irrefl 0)
  | succ k =>
    simp only [sizeDec]
    exact Nat.mod_eq_of_lt (by omega)

/-! ## The member functions on well-formed states -/

section Members

variable {T : Type}

theorem inv_length_le (s : State T) (cs : List (Nat × T)) (h : Inv s cs) :
    cs.length ≤ s.heap.length :=
  seg_length_le _ _ _ h.2.1

theorem make_shared_full (st : Store T) (v : T) (h : ¬ st.length < MAX_CELLS) :
    make_shared st v = .error .badAlloc := by
  simp [make_shared, h]

theorem insertHead_full (v : T) (s : State T) (h : ¬ s.heap.length < MAX_CELLS) :
    insertHead v s = .error .badAlloc := by
  simp [insertHead, make_shared_full _ _ h, bind, Except.bind]

theorem insertTail_full (v : T) (s : State T) (h : ¬ s.heap.length < MAX_CELLS) :
    insertTail v s = .error .badAlloc := by
  simp [insertTail, make_shared_full _ _ h, bind, Except.bind]

theorem insertHead_eq (v : T) (s : State T) (h : s.heap.length < MAX_CELLS) :
    insertHead v s = .ok
      { heap := s.heap ++ [{ data := v, next := s.list.head }],
        list := { head := some s.heap.length, size := sizeInc s.list.size } } := by
  simp [insertHead, make_shared, h, bind, Except.bind, setNext, pure, Except.pure]

theorem insertHead_inv (v : T) (s : State T) (cs : List (Nat × T)) (h : Inv s cs)
    (hroom : s.heap.length < MAX_CELLS) :
    ∃ s2, insertHead v s = .ok s2 ∧ Inv s2 ((s.heap.length, v) :: cs) ∧
      s2.heap.length = s.heap.length + 1 := by
  refine ⟨_, insertHead_eq v s hroom, ⟨?_, ?_, ?_⟩, by simp⟩
  · simp only [List.length_append, List.length_singleton]
    exact hroom
  · refine Seg.cons _ _ _ _ _ ?_ (seg_grow _ _ _ _ _ h.2.1)
    simp
  · have hle := inv_length_le s cs h
    simp only [List.length_cons]
    rw [sizeInc_eq _ (by rw [h.2.2]; omega), h.2.2]

theorem search_loop_spec [DecidableEq T] (x : T) (st : Store T) :
    ∀ (cs : List (Nat × T)) (fuel : Nat) (p : Option Nat),
    Seg st p cs none → cs.length < fuel →
    search.loop x st fuel p = .ok (decide (x ∈ cs.map Prod.snd))
  | _, 0, _, _, hl => absurd hl (Nat.not_lt_zero _)
  | [], fuel + 1, p, h, _ => by
    rw [seg_nil] at h
    subst h
    simp [search.loop, pure, Except.pure]
  | c :: cs, fuel + 1, p, h, hl => by
    rw [seg_cons] at h
    obtain ⟨hp, nx, hnx, hs⟩ := h
    subst hp
    have ih := search_loop_spec x st cs fuel nx hs (Nat.lt_of_succ_lt_succ hl)
    simp only [search.loop, bind, Except.bind, deref_some st c.1 _ hnx]
    by_cases hx : c.2 = x
    · simp [hx, pure, Except.pure]
    · have hx2 : ¬ x = c.2 := fun e => hx e.symm
      simp [hx, hx2, ih]

theorem search_inv [DecidableEq T] (x : T) (s : State T) (cs : List (Nat × T)) (h : Inv s cs) :
    search x s = .ok (decide (x ∈ cs.map Prod.snd)) :=
  search_loop_spec x s.heap cs _ _ h.2.1 (Nat.lt_succ_of_le (inv_length_le s cs h))

theorem seg_start (st : Store T) (d : Nat × T) (ds : List (Nat × T)) (p q : Option Nat)
    (h : Seg st p (d :: ds) q) : p = some d.1 := ((seg_cons _ _ _ _ _).mp h).1

theorem exists_cons_of_concat (c1 : List (Nat × T)) (b : Nat × T) :
    ∃ d ds, c1 ++ [b] = d :: ds ∧ ds.length = c1.length := by
  cases c1 with
  | nil => exact ⟨b, [], rfl, rfl⟩
  | cons c cr => exact ⟨c, cr ++ [b], rfl, by simp⟩

theorem exists_concat_of_cons (c : Nat × T) (cr : List (Nat × T)) :
    ∃ front b, c :: cr = front ++ [b] ∧ front.length = cr.length := by
  rcases List.eq_nil_or_concat (c :: cr) with h | ⟨front, b, h⟩
  · exact absurd h (by simp)
  · rw [List.concat_eq_append] at h
    refine ⟨front, b, h, ?_⟩
    have := congrArg List.length h
    simp at this
    omega

theorem insertTail_loop_spec (st : Store T) :
    ∀ (c1 : List (Nat × T)) (last : Nat × T) (fuel : Nat) (p : Option Nat),
    Seg st p (c1 ++ [last]) none → c1.length < fuel →
    insertTail.loop st fuel p = .ok (some last.1)
  | _, _, 0, _, _, hl => absurd hl (Nat.not_lt_zero _)
  | [], last, fuel + 1, p, h, _ => by
    rw [List.nil_append, seg_cons] at h
    obtain ⟨hp, nx, hnx, hs⟩ := h
    rw [seg_nil] at hs
    subst hp hs
    simp only [insertTail.loop, bind, Except.bind, deref_some st last.1 _ hnx, pure, Except.pure]
  | c :: c1, last, fuel + 1, p, h, hl => by
    rw [List.cons_append, seg_cons] at h
    obtain ⟨hp, nx, hnx, hs⟩ := h
    subst hp
    have ih := insertTail_loop_spec st c1 last fuel nx hs (Nat.lt_of_succ_lt_succ hl)
    obtain ⟨d, ds, hd, _⟩ := exists_cons_of_concat c1 last
    rw [hd] at hs
    have hn := seg_start st d ds nx none hs
    subst hn
    simp only [insertTail.loop, bind, Except.bind, deref_some st c.1 _ hnx]
    exact ih

theorem insertTail_inv_frame (v : T) (s : State T) (cs : List (Nat × T)) (h : Inv s cs)
    (hroom : s.heap.length < MAX_CELLS) :
    ∃ s2, insertTail v s = .ok s2 ∧ Inv s2 (cs ++ [(s.heap.length, v)]) ∧
      s2.heap.length = s.heap.length + 1 ∧
      ∀ a, a < s.heap.length → a ∉ cs.map Prod.fst → s2.heap[a]? = s.heap[a]? := by
  obtain ⟨hmax, hseg, hsize⟩ := h
  have hle := seg_length_le _ _ _ hseg
  have hinc : sizeInc s.list.size = cs.length + 1 := by
    rw [sizeInc_eq _ (by rw [hsize]; omega), hsize]
  cases cs with
  | nil =>
    rw [seg_nil] at hseg
    refine ⟨{ heap := s.heap ++ [Node.mk v none],
              list := { head := some s.heap.length, size := sizeInc s.list.size } },
      ?_, ⟨?_, ?_, ?_⟩, by simp, fun a ha _ => List.getElem?_append_left ha⟩
    · simp [insertTail, make_shared, hroom, bind, Except.bind, hseg, pure, Except.pure]
    · simp only [List.length_append, List.length_singleton]
      exact hroom
    · exact Seg.cons _ _ _ _ _ (by simp) (Seg.nil _)
    · simpa using hinc
  | cons c cr =>
    obtain ⟨front, last, hfl, hlen⟩ := exists_concat_of_cons c cr
    have hhead : s.list.head = some c.1 := seg_start _ _ _ _ _ hseg
    have hnd := seg_nodup _ _ _ hseg
    have hlt := seg_addr_lt _ _ _ _ hseg
    rw [hfl] at hseg hnd hlt hinc hle ⊢
    have hg := seg_grow s.heap [Node.mk v none] _ _ _ hseg
    have hloop := insertTail_loop_spec _ front last
      ((s.heap ++ [Node.mk v none]).length + 1) _ hg
      (by simp at hle ⊢; omega)
    rw [seg_append] at hg
    obtain ⟨m, hfront, hmid⟩ := hg
    rw [seg_cons] at hmid
    obtain ⟨hm, nx, hnx, hend⟩ := hmid
    rw [seg_nil] at hend
    subst hend
    have hlast : last.1 < s.heap.length := hlt last.1 (by simp)
    have hlastnot : last.1 ∉ front.map Prod.fst := by
      rw [List.map_append, List.nodup_append] at hnd
      intro hmem
      exact hnd.2.2 hmem (by simp)
    refine ⟨{ heap := (s.heap ++ [Node.mk v none]).set last.1 (Node.mk last.2 (some s.heap.length)),
              list := { head := s.list.head, size := sizeInc s.list.size } },
      ?_, ⟨?_, ?_, ?_⟩, by simp, ?_⟩
    · simp only [insertTail, make_shared, hroom, if_true, bind, Except.bind]
      rw [hhead] at hloop ⊢
      simp only [hloop, setNext, hnx, pure, Except.pure]
    · simp only [List.length_set, List.length_append, List.length_singleton]
      exact hroom
    · rw [List.append_assoc, seg_append]
      refine ⟨m, seg_set_frame _ _ _ _ _ _ hlastnot hfront, ?_⟩
      rw [hm]
      refine Seg.cons _ _ _ _ _ ?_ (Seg.cons _ _ _ _ _ ?_ (Seg.nil _))
      · rw [List.getElem?_set_self (by simp; omega)]
      · rw [List.getElem?_set_ne (Nat.ne_of_lt hlast)]
        simp
    · simp only [List.length_append, List.length_singleton] at hinc ⊢
      exact hinc
    · intro a ha hmem
      have hne : last.1 ≠ a := by
        rintro rfl
        exact hmem (by simp)
      show ((s.heap ++ [Node.mk v none]).set last.1 _)[a]? = s.heap[a]?
      rw [List.getElem?_set_ne hne, List.getElem?_append_left ha]

theorem insertTail_inv (v : T) (s : State T) (cs : List (Nat × T)) (h : Inv s cs)
    (hroom : s.heap.length < MAX_CELLS) :
    ∃ s2, insertTail v s = .ok s2 ∧ Inv s2 (cs ++ [(s.heap.length, v)]) ∧
      s2.heap.length = s.heap.length + 1 := by
  obtain ⟨s2, h1, h2, h3, _⟩ := insertTail_inv_frame v s cs h hroom
  exact ⟨s2, h1, h2, h3⟩

theorem deleteValue_loop_spec [DecidableEq T] (x : T) (st : Store T) :
    ∀ (c1 : List (Nat × T)) (b : Nat × T) (q : Option Nat) (fuel : Nat) (p : Option Nat),
    Seg st p (c1 ++ [b]) q →
    (q = none ∨ ∃ a nx, q = some a ∧ st[a]? = some (Node.mk x nx)) →
    (∀ d ∈ c1 ++ [b], d.2 ≠ x) → c1.length < fuel →
    deleteValue.loop x st fuel p = .ok (some b.1)
  | _, _, _, 0, _, _, _, _, hl => absurd hl (Nat.not_lt_zero _)
  | [], b, q, fuel + 1, p, h, hq, _, _ => by
    rw [List.nil_append, seg_cons] at h
    obtain ⟨hp, n1, hn1, hs⟩ := h
    rw [seg_nil] at hs
    subst hp hs
    rcases hq with rfl | ⟨a, nx, rfl, ha⟩
    · simp only [deleteValue.loop, bind, Except.bind, deref_some st b.1 _ hn1, pure, Except.pure]
    · simp [deleteValue.loop, bind, Except.bind, deref_some st b.1 _ hn1, deref_some st a _ ha,
        pure, Except.pure]
  | c :: c1, b, q, fuel + 1, p, h, hq, hne, hl => by
    rw [List.cons_append, seg_cons] at h
    obtain ⟨hp, n1, hn1, hs⟩ := h
    subst hp
    have hne2 : ∀ d ∈ c1 ++ [b], d.2 ≠ x := fun d hd => hne d (List.mem_cons_of_mem _ hd)
    have ih := deleteValue_loop_spec x st c1 b q fuel n1 hs hq hne2 (Nat.lt_of_succ_lt_succ hl)
    obtain ⟨d, ds, hd, _⟩ := exists_cons_of_concat c1 b
    have hdx : d.2 ≠ x := hne2 d (by rw [hd]; exact List.mem_cons_self _ _)
    rw [hd, seg_cons] at hs
    obtain ⟨hn, n2, hn2, _⟩ := hs
    subst hn
    simp only [deleteValue.loop, bind, Except.bind, deref_some st c.1 _ hn1,
      deref_some st d.1 _ hn2, ne_eq, hdx, not_false_eq_true, if_true]
    exact ih

theorem deleteValue_absent_inv [DecidableEq T] (x : T) (s : State T) (cs : List (Nat × T))
    (h : Inv s cs) (hne : ∀ d ∈ cs, d.2 ≠ x) : deleteValue x s = .ok (false, s) := by
  obtain ⟨hmax, hseg, hsize⟩ := h
  have hle := seg_length_le _ _ _ hseg
  cases cs with
  | nil =>
    rw [seg_nil] at hseg
    simp [deleteValue, hseg, pure, Except.pure]
  | cons c cr =>
    have hc : c.2 ≠ x := hne c (List.mem_cons_self _ _)
    obtain ⟨front, last, hfl, hlen⟩ := exists_concat_of_cons c cr
    have hseg0 := hseg
    rw [seg_cons] at hseg0
    obtain ⟨hhead, n1, hn1, _⟩ := hseg0
    rw [hfl] at hseg hne
    have hloop := deleteValue_loop_spec x s.heap front last none (s.heap.length + 1) _ hseg
      (Or.inl rfl) hne (by simp at hle; omega)
    rw [seg_append] at hseg
    obtain ⟨m, _, hmid⟩ := hseg
    rw [seg_cons] at hmid
    obtain ⟨hm, nx, hnx, hend⟩ := hmid
    rw [seg_nil] at hend
    subst hend
    rw [hhead] at hloop
    simp only [deleteValue, hhead, bind, Except.bind, deref_some _ c.1 _ hn1, hc, if_false,
      hloop, deref_some _ last.1 _ hnx, pure, Except.pure]

theorem deleteValue_found_inv_frame [DecidableEq T] (x : T) (s : State T)
    (c1 c2 : List (Nat × T)) (a : Nat) (h : Inv s (c1 ++ (a, x) :: c2))
    (hne : ∀ d ∈ c1, d.2 ≠ x) :
    ∃ s2, deleteValue x s = .ok (true, s2) ∧ Inv s2 (c1 ++ c2) ∧
      s2.heap.length = s.heap.length ∧
      ∀ q, q ∉ (c1 ++ (a, x) :: c2).map Prod.fst → s2.heap[q]? = s.heap[q]? := by
  obtain ⟨hmax, hseg, hsize⟩ := h
  have hle := seg_length_le _ _ _ hseg
  have hnd := seg_nodup _ _ _ hseg
  have hlt := seg_addr_lt _ _ _ _ hseg
  have hdec : sizeDec s.list.size = (c1 ++ c2).length := by
    rw [sizeDec_eq _ (by rw [hsize]; omega) (by rw [hsize]; simp), hsize]
    simp
  rw [seg_append] at hseg
  obtain ⟨m, hfront, hmid⟩ := hseg
  rw [seg_cons] at hmid
  obtain ⟨hm, nx, hnx, hrest⟩ := hmid
  subst hm
  simp only at hnx hfront
  cases c1 with
  | nil =>
    rw [seg_nil] at hfront
    refine ⟨{ heap := s.heap, list := { head := nx, size := sizeDec s.list.size } }, ?_,
      ⟨hmax, hrest, hdec⟩, rfl, fun _ _ => rfl⟩
    simp only [deleteValue, hfront, bind, Except.bind, deref_some _ a _ hnx, if_true, pure,
      Except.pure]
  | cons c cr =>
    have hc : c.2 ≠ x := hne c (List.mem_cons_self _ _)
    obtain ⟨front, b, hfl, hlen⟩ := exists_concat_of_cons c cr
    have hseg0 := hfront
    rw [seg_cons] at hseg0
    obtain ⟨hhead, n1, hn1, _⟩ := hseg0
    rw [hfl] at hfront hne hnd hlt hdec hle ⊢
    have hloop := deleteValue_loop_spec x s.heap front b (some a) (s.heap.length + 1) _ hfront
      (Or.inr ⟨a, nx, rfl, hnx⟩) hne (by simp at hle; omega)
    rw [seg_append] at hfront
    obtain ⟨m, hfr, hmid⟩ := hfront
    rw [seg_cons] at hmid
    obtain ⟨hm, nb, hnb, hend⟩ := hmid
    rw [seg_nil] at hend
    subst hend
    have hb : b.1 < s.heap.length := hlt b.1 (by simp)
    simp only [List.map_append, List.map_cons, List.map_nil, List.nodup_append,
      List.nodup_cons] at hnd
    have hb1 : b.1 ∉ front.map Prod.fst := fun hmem => hnd.1.2.2 hmem (by simp)
    have hb2 : b.1 ∉ c2.map Prod.fst := fun hmem =>
      hnd.2.2 (List.mem_append_right _ (List.mem_singleton_self _)) (List.mem_cons_of_mem _ hmem)
    refine ⟨{ heap := s.heap.set b.1 (Node.mk b.2 nx),
              list := { head := s.list.head, size := sizeDec s.list.size } }, ?_,
      ⟨?_, ?_, hdec⟩, by simp, ?_⟩
    · rw [hhead] at hloop
      simp only [deleteValue, hhead, bind, Except.bind, deref_some _ c.1 _ hn1, hc, if_false,
        hloop, deref_some _ b.1 _ hnb, deref_some _ a _ hnx, setNext, hnb, pure, Except.pure]
    · simp only [List.length_set]
      exact hmax
    · rw [List.append_assoc, seg_append]
      refine ⟨m, seg_set_frame _ _ _ _ _ _ hb1 hfr, ?_⟩
      rw [hm]
      refine Seg.cons _ _ _ _ _ ?_ (seg_set_frame _ _ _ _ _ _ hb2 hrest)
      rw [List.getElem?_set_self hb]
    · intro q hq
      have hne : b.1 ≠ q := by
        rintro rfl
        exact hq (by simp)
      show (s.heap.set b.1 _)[q]? = s.heap[q]?
      rw [List.getElem?_set_ne hne]

theorem deleteValue_found_inv [DecidableEq T] (x : T) (s : State T)
    (c1 c2 : List (Nat × T)) (a : Nat) (h : Inv s (c1 ++ (a, x) :: c2))
    (hne : ∀ d ∈ c1, d.2 ≠ x) :
    ∃ s2, deleteValue x s = .ok (true, s2) ∧ Inv s2 (c1 ++ c2) := by
  obtain ⟨s2, h1, h2, _⟩ := deleteValue_found_inv_frame x s c1 c2 a h hne
  exact ⟨s2, h1, h2⟩

theorem split_first_match (x : T) : ∀ (cs : List (Nat × T)),
    (∀ d ∈ cs, d.2 ≠ x) ∨
      ∃ c1 a c2, cs = c1 ++ (a, x) :: c2 ∧ ∀ d ∈ c1, d.2 ≠ x
  | [] => Or.inl (by simp)
  | c :: cs => by
    by_cases hc : c.2 = x
    · right
      refine ⟨[], c.1, cs, ?_, by simp⟩
      rw [← hc]
      rfl
    · rcases split_first_match x cs with h | ⟨c1, a, c2, h1, h2⟩
      · left
        intro d hd
        rcases List.mem_cons.mp hd with rfl | hd
        · exact hc
        · exact h d hd
      · right
        refine ⟨c :: c1, a, c2, by rw [h1]; rfl, ?_⟩
        intro d hd
        rcases List.mem_cons.mp hd with rfl | hd
        · exact hc
        · exact h2 d hd

theorem insertHead_preserves (v : T) (s s2 : State T) (cs : List (Nat × T)) (h : Inv s cs)
    (hok : insertHead v s = .ok s2) : Inv s2 ((s.heap.length, v) :: cs) := by
  by_cases hroom : s.heap.length < MAX_CELLS
  · obtain ⟨s3, h3, hinv, _⟩ := insertHead_inv v s cs h hroom
    rw [h3, Except.ok.injEq] at hok
    rw [← hok]
    exact hinv
  · rw [insertHead_full v s hroom] at hok
    exact absurd hok (by simp)

theorem insertTail_preserves (v : T) (s s2 : State T) (cs : List (Nat × T)) (h : Inv s cs)
    (hok : insertTail v s = .ok s2) : Inv s2 (cs ++ [(s.heap.length, v)]) := by
  by_cases hroom : s.heap.length < MAX_CELLS
  · obtain ⟨s3, h3, hinv, _⟩ := insertTail_inv v s cs h hroom
    rw [h3, Except.ok.injEq] at hok
    rw [← hok]
    exact hinv
  · rw [insertTail_full v s hroom] at hok
    exact absurd hok (by simp)

theorem deleteValue_preserves [DecidableEq T] (x : T) (s s2 : State T) (b : Bool)
    (cs : List (Nat × T)) (h : Inv s cs) (hok : deleteValue x s = .ok (b, s2)) :
    ∃ cs2, Inv s2 cs2 ∧ cs2.length + (if b then 1 else 0) = cs.length := by
  rcases split_first_match x cs with hne | ⟨c1, a, c2, hcs, hne⟩
  · rw [deleteValue_absent_inv x s cs h hne, Except.ok.injEq, Prod.mk.injEq] at hok
    obtain ⟨hb, hs⟩ := hok
    subst hb hs
    exact ⟨cs, h, by simp⟩
  · subst hcs
    obtain ⟨s3, h3, hinv⟩ := deleteValue_found_inv x s c1 c2 a h hne
    rw [h3, Except.ok.injEq, Prod.mk.injEq] at hok
    obtain ⟨hb, hs⟩ := hok
    subst hb hs
    refine ⟨c1 ++ c2, hinv, ?_⟩
    simp
    omega

theorem release_fits (st : Store T) : ∀ (cs : List (Nat × T)) (depth : Nat) (p : Option Nat),
    Seg st p cs none → cs.length ≤ depth → release st depth p = .ok ()
  | [], depth, p, h, _ => by
    rw [seg_nil] at h
    subst h
    cases depth <;> rfl
  | c :: cs, 0, _, _, hl => absurd hl (by simp)
  | c :: cs, depth + 1, p, h, hl => by
    rw [seg_cons] at h
    obtain ⟨hp, nx, hnx, hs⟩ := h
    subst hp
    simp only [release, bind, Except.bind, deref_some st c.1 _ hnx]
    exact release_fits st cs depth nx hs (Nat.le_of_succ_le_succ hl)

theorem release_overflows (st : Store T) :
    ∀ (cs : List (Nat × T)) (depth : Nat) (p : Option Nat),
    Seg st p cs none → depth < cs.length → release st depth p = .error .stackOverflow
  | [], _, _, _, hl => absurd hl (by simp)
  | c :: cs, 0, p, h, _ => by
    rw [seg_start st c cs p none h]
    rfl
  | c :: cs, depth + 1, p, h, hl => by
    rw [seg_cons] at h
    obtain ⟨hp, nx, hnx, hs⟩ := h
    subst hp
    simp only [release, bind, Except.bind, deref_some st c.1 _ hnx]
    exact release_overflows st cs depth nx hs (Nat.lt_of_succ_lt_succ hl)

theorem clear_fits (depth : Nat) (s : State T) (cs : List (Nat × T)) (h : Inv s cs)
    (hd : cs.length ≤ depth) :
    clear depth s = .ok { heap := s.heap, list := LinkedList.new } := by
  simp only [clear, bind, Except.bind, release_fits s.heap cs depth _ h.2.1 hd, pure,
    Except.pure, LinkedList.new]

theorem clear_overflows (depth : Nat) (s : State T) (cs : List (Nat × T)) (h : Inv s cs)
    (hd : depth < cs.length) : clear depth s = .error .stackOverflow := by
  simp only [clear, bind, Except.bind, release_overflows s.heap cs depth _ h.2.1 hd]

theorem clear_ok_eq (depth : Nat) (s s2 : State T) (hok : clear depth s = .ok s2) :
    s2 = { heap := s.heap, list := LinkedList.new } := by
  simp only [clear, bind, Except.bind] at hok
  cases hr : release s.heap depth s.list.head with
  | error e => simp [hr] at hok
  | ok u =>
    simp only [hr, pure, Except.pure, Except.ok.injEq] at hok
    rw [← hok]
    rfl

theorem clear_inv (depth : Nat) (s s2 : State T) (h : s.heap.length ≤ MAX_CELLS)
    (hok : clear depth s = .ok s2) : Inv s2 [] := by
  rw [clear_ok_eq depth s s2 hok]
  exact ⟨h, Seg.nil _, rfl⟩

theorem init_inv : Inv (State.init T) [] :=
  ⟨Nat.zero_le _, Seg.nil _, rfl⟩

theorem deleteValue_first [DecidableEq T] (s : State T) (pre post : List T) (x : T)
    (hs : HasContents s (pre ++ [x] ++ post)) (hx : x ∉ pre) :
    ∃ s2, deleteValue x s = .ok (true, s2) ∧ HasContents s2 (pre ++ post) ∧
      getSize s2 + 1 = getSize s := by
  obtain ⟨cs, hinv, hmap⟩ := (hasContents_iff s _).mp hs
  rw [List.append_assoc, List.map_eq_append_iff] at hmap
  obtain ⟨c1, rest, rfl, hc1, hrest⟩ := hmap
  rw [List.singleton_append, List.map_eq_cons_iff] at hrest
  obtain ⟨c, c2, rfl, hc, hc2⟩ := hrest
  obtain ⟨a, y⟩ := c
  simp only at hc
  subst hc
  have hne : ∀ d ∈ c1, d.2 ≠ y := by
    intro d hd hdy
    apply hx
    rw [← hc1, ← hdy]
    exact List.mem_map_of_mem _ hd
  obtain ⟨s2, hdel, hinv2⟩ := deleteValue_found_inv y s c1 c2 a hinv hne
  refine ⟨s2, hdel, (hasContents_iff s2 _).mpr ⟨c1 ++ c2, hinv2, ?_⟩, ?_⟩
  · rw [List.map_append, hc1, hc2]
  · unfold getSize
    rw [hinv2.2.2, hinv.2.2]
    simp
    omega

theorem deleteValue_absent [DecidableEq T] (s : State T) (xs : List T) (x : T)
    (hs : HasContents s xs) (hx : x ∉ xs) : deleteValue x s = .ok (false, s) := by
  obtain ⟨cs, hinv, hmap⟩ := (hasContents_iff s _).mp hs
  apply deleteValue_absent_inv x s cs hinv
  intro d hd hdx
  apply hx
  rw [← hmap, ← hdx]
  exact List.mem_map_of_mem _ hd

theorem deleteValueTimes_absent [DecidableEq T] (s : State T) (x : T)
    (h : deleteValue x s = .ok (false, s)) : ∀ n, deleteValueTimes x n s = .ok s
  | 0 => rfl
  | n + 1 => by
    simp only [deleteValueTimes, bind, Except.bind, h]
    exact deleteValueTimes_absent s x h n

theorem search_contents [DecidableEq T] (s : State T) (xs : List T) (x : T)
    (hs : HasContents s xs) : search x s = .ok (decide (x ∈ xs)) := by
  obtain ⟨cs, hinv, hmap⟩ := (hasContents_iff s _).mp hs
  rw [search_inv x s cs hinv, hmap]

theorem insertHead_contents (v : T) (s : State T) (xs : List T) (hs : HasContents s xs)
    (hroom : s.heap.length < MAX_CELLS) :
    ∃ s2, insertHead v s = .ok s2 ∧ HasContents s2 (v :: xs) ∧
      s2.heap.length = s.heap.length + 1 := by
  obtain ⟨cs, hinv, hmap⟩ := (hasContents_iff s _).mp hs
  obtain ⟨s2, hok, hinv2, hlen⟩ := insertHead_inv v s cs hinv hroom
  exact ⟨s2, hok, (hasContents_iff s2 _).mpr ⟨_, hinv2, by rw [List.map_cons, hmap]⟩, hlen⟩

theorem insertTail_contents (v : T) (s : State T) (xs : List T) (hs : HasContents s xs)
    (hroom : s.heap.length < MAX_CELLS) :
    ∃ s2, insertTail v s = .ok s2 ∧ HasContents s2 (xs ++ [v]) ∧
      s2.heap.length = s.heap.length + 1 := by
  obtain ⟨cs, hinv, hmap⟩ := (hasContents_iff s _).mp hs
  obtain ⟨s2, hok, hinv2, hlen⟩ := insertTail_inv v s cs hinv hroom
  exact ⟨s2, hok, (hasContents_iff s2 _).mpr ⟨_, hinv2, by rw [List.map_append, hmap]; rfl⟩, hlen⟩

theorem run_insertHead_contents [DecidableEq T] (depth : Nat) :
    ∀ (vs : List T) (s : State T) (xs : List T),
    HasContents s xs → s.heap.length + vs.length ≤ MAX_CELLS →
    ∃ s2, run depth (vs.map Op.insertHead) s = .ok s2 ∧ HasContents s2 (vs.reverse ++ xs)
  | [], s, xs, hs, _ => ⟨s, rfl, by simpa using hs⟩
  | v :: vs, s, xs, hs, hroom => by
    simp only [List.length_cons] at hroom
    obtain ⟨s1, hok, hs1, hlen⟩ := insertHead_contents v s xs hs (by omega)
    obtain ⟨s2, hrun, hs2⟩ := run_insertHead_contents depth vs s1 (v :: xs) hs1 (by omega)
    refine ⟨s2, ?_, ?_⟩
    · simp only [List.map_cons, run, step, bind, Except.bind, hok]
      exact hrun
    · simpa using hs2

theorem run_insertTail_contents [DecidableEq T] (depth : Nat) :
    ∀ (vs : List T) (s : State T) (xs : List T),
    HasContents s xs → s.heap.length + vs.length ≤ MAX_CELLS →
    ∃ s2, run depth (vs.map Op.insertTail) s = .ok s2 ∧ HasContents s2 (xs ++ vs)
  | [], s, xs, hs, _ => ⟨s, rfl, by simpa using hs⟩
  | v :: vs, s, xs, hs, hroom => by
    simp only [List.length_cons] at hroom
    obtain ⟨s1, hok, hs1, hlen⟩ := insertTail_contents v s xs hs (by omega)
    obtain ⟨s2, hrun, hs2⟩ := run_insertTail_contents depth vs s1 (xs ++ [v]) hs1 (by omega)
    refine ⟨s2, ?_, ?_⟩
    · simp only [List.map_cons, run, step, bind, Except.bind, hok]
      exact hrun
    · simpa using hs2

theorem step_preserves [DecidableEq T] (depth : Nat) (op : Op T) (s s2 : State T)
    (cs : List (Nat × T)) (h : Inv s cs) (hok : step depth op s = .ok s2) :
    ∃ cs2, Inv s2 cs2 := by
  cases op with
  | insertHead v => exact ⟨_, insertHead_preserves v s s2 cs h hok⟩
  | insertTail v => exact ⟨_, insertTail_preserves v s s2 cs h hok⟩
  | deleteValue v =>
    simp only [step, bind, Except.bind] at hok
    cases hd : deleteValue v s with
    | error e => simp [hd] at hok
    | ok r =>
      simp only [hd, pure, Except.pure, Except.ok.injEq] at hok
      obtain ⟨b, s3⟩ := r
      simp only at hok
      subst hok
      obtain ⟨cs2, h2, _⟩ := deleteValue_preserves v s s3 b cs h hd
      exact ⟨cs2, h2⟩
  | clear => exact ⟨[], clear_inv depth s s2 h.1 hok⟩

theorem run_preserves [DecidableEq T] (depth : Nat) : ∀ (ops : List (Op T)) (s s2 : State T)
    (cs : List (Nat × T)), Inv s cs → run depth ops s = .ok s2 → ∃ cs2, Inv s2 cs2
  | [], s, s2, cs, h, hok => by
    simp only [run, pure, Except.pure, Except.ok.injEq] at hok
    subst hok
    exact ⟨cs, h⟩
  | op :: ops, s, s2, cs, h, hok => by
    simp only [run, bind, Except.bind] at hok
    cases hst : step depth op s with
    | error e => simp [hst] at hok
    | ok s1 =>
      simp only [hst] at hok
      obtain ⟨cs1, h1⟩ := step_preserves depth op s s1 cs h hst
      exact run_preserves depth ops s1 s2 cs1 h1 hok

theorem runTally_preserves [DecidableEq T] (depth : Nat) :
    ∀ (ops : List (Op T)) (s s2 : State T) (cs : List (Nat × T)) (k j k2 j2 : Nat),
    Inv s cs → k = j + cs.length → (∀ op ∈ ops, op ≠ Op.clear) →
    runTally depth ops s k j = .ok (s2, k2, j2) → ∃ cs2, Inv s2 cs2 ∧ k2 = j2 + cs2.length
  | [], s, s2, cs, k, j, k2, j2, h, hk, _, hok => by
    simp only [runTally, pure, Except.pure, Except.ok.injEq, Prod.mk.injEq] at hok
    obtain ⟨rfl, rfl, rfl⟩ := hok
    exact ⟨cs, h, hk⟩
  | .insertHead v :: ops, s, s2, cs, k, j, k2, j2, h, hk, hnc, hok => by
    simp only [runTally, bind, Except.bind] at hok
    cases hd : insertHead v s with
    | error e => simp [hd] at hok
    | ok s1 =>
      simp only [hd] at hok
      exact runTally_preserves depth ops s1 s2 _ (k + 1) j k2 j2 (insertHead_preserves v s s1 cs h hd)
        (by simp only [List.length_cons]; omega)
        (fun op hop => hnc op (List.mem_cons_of_mem _ hop)) hok
  | .insertTail v :: ops, s, s2, cs, k, j, k2, j2, h, hk, hnc, hok => by
    simp only [runTally, bind, Except.bind] at hok
    cases hd : insertTail v s with
    | error e => simp [hd] at hok
    | ok s1 =>
      simp only [hd] at hok
      exact runTally_preserves depth ops s1 s2 _ (k + 1) j k2 j2 (insertTail_preserves v s s1 cs h hd)
        (by simp only [List.length_append, List.length_singleton]; omega)
        (fun op hop => hnc op (List.mem_cons_of_mem _ hop)) hok
  | .deleteValue v :: ops, s, s2, cs, k, j, k2, j2, h, hk, hnc, hok => by
    simp only [runTally, bind, Except.bind] at hok
    cases hd : deleteValue v s with
    | error e => simp [hd] at hok
    | ok r =>
      simp only [hd] at hok
      obtain ⟨b, s1⟩ := r
      obtain ⟨cs1, h1, hlen⟩ := deleteValue_preserves v s s1 b cs h hd
      refine runTally_preserves depth ops s1 s2 cs1 k _ k2 j2 h1 ?_
        (fun op hop => hnc op (List.mem_cons_of_mem _ hop)) hok
      cases b <;> simp at hlen ⊢ <;> omega
  | .clear :: ops, s, s2, cs, k, j, k2, j2, _, _, hnc, _ =>
    absurd rfl (hnc Op.clear (List.mem_cons_self _ _))

theorem inv_isEmpty_iff (s : State T) (cs : List (Nat × T)) (h : Inv s cs) :
    isEmpty s = true ↔ getSize s = 0 := by
  obtain ⟨_, hseg, hsize⟩ := h
  unfold isEmpty getSize
  cases cs with
  | nil =>
    rw [seg_nil] at hseg
    simp [hseg, hsize]
  | cons c cr =>
    rw [seg_cons] at hseg
    simp [hseg.1, hsize]

theorem display_loop_spec (render : T → String) (st : Store T) :
    ∀ (cs : List (Nat × T)) (fuel : Nat) (p : Option Nat),
    Seg st p cs none → cs.length < fuel →
    display.loop render st fuel p =
      .ok ((cs.map (fun c => render c.2)).intersperse " -> ")
  | _, 0, _, _, hl => absurd hl (Nat.not_lt_zero _)
  | [], fuel + 1, p, h, _ => by
    rw [seg_nil] at h
    subst h
    rfl
  | [c], fuel + 1, p, h, hl => by
    rw [seg_cons] at h
    obtain ⟨hp, nx, hnx, hs⟩ := h
    rw [seg_nil] at hs
    subst hp hs
    cases fuel with
    | zero => exact absurd hl (by simp)
    | succ f =>
      simp [display.loop, bind, Except.bind, deref_some st c.1 _ hnx, pure, Except.pure]
  | c :: d :: ds, fuel + 1, p, h, hl => by
    rw [seg_cons] at h
    obtain ⟨hp, nx, hnx, hs⟩ := h
    subst hp
    have ih := display_loop_spec render st (d :: ds) fuel nx hs (Nat.lt_of_succ_lt_succ hl)
    have hn := seg_start st d ds nx none hs
    subst hn
    simp only [display.loop, bind, Except.bind, deref_some st c.1 _ hnx, ih, pure, Except.pure]
    simp

theorem display_contents (render : T → String) (s : State T) (xs : List T)
    (hs : HasContents s xs) :
    (xs = [] → display render s = .ok (["List is empty", "\n"], s)) ∧
    (xs ≠ [] →
      display render s = .ok ((xs.map render).intersperse " -> " ++ ["\n"], s)) := by
  obtain ⟨cs, hinv, hmap⟩ := (hasContents_iff s _).mp hs
  obtain ⟨_, hseg, _⟩ := hinv
  have hle := seg_length_le _ _ _ hseg
  cases cs with
  | nil =>
    rw [seg_nil] at hseg
    simp only [List.map_nil] at hmap
    subst hmap
    refine ⟨fun _ => ?_, fun h => absurd rfl h⟩
    simp only [display, hseg, pure, Except.pure]
  | cons c cr =>
    have hhead := seg_start _ _ _ _ _ hseg
    have hloop := display_loop_spec render s.heap (c :: cr) (s.heap.length + 1) _ hseg
      (Nat.lt_succ_of_le hle)
    have hm : (c :: cr).map (fun c => render c.2) = xs.map render := by
      rw [← hmap, List.map_map]
      rfl
    rw [hm] at hloop
    refine ⟨fun h => ?_, fun _ => ?_⟩
    · rw [h] at hmap
      exact absurd hmap (by simp)
    · rw [hhead] at hloop
      simp only [display, hhead, bind, Except.bind, hloop, pure, Except.pure]

theorem deleteValue_erase [DecidableEq T] (s : State T) (xs : List T) (x : T)
    (hs : HasContents s xs) :
    ∃ s2, deleteValue x s = .ok (decide (x ∈ xs), s2) ∧ HasContents s2 (xs.erase x) := by
  by_cases hx : x ∈ xs
  · obtain ⟨pre, post, hsplit, hpre⟩ := List.eq_append_cons_of_mem hx
    subst hsplit
    obtain ⟨s2, hdel, hs2, _⟩ :=
      deleteValue_first s pre post x (by simpa using hs) hpre
    refine ⟨s2, by simpa [hx] using hdel, ?_⟩
    rw [List.erase_append_right _ hpre, List.erase_cons_head]
    exact hs2
  · refine ⟨s, by simpa [hx] using deleteValue_absent s xs x hs hx, ?_⟩
    rw [List.erase_of_not_mem hx]
    exact hs

theorem hasContents_size (s : State T) (xs : List T) (hs : HasContents s xs) :
    getSize s = xs.length := hs.2.2

theorem hasContents_length_le (s : State T) (xs : List T) (hs : HasContents s xs) :
    xs.length ≤ s.heap.length := by
  obtain ⟨cs, hinv, hmap⟩ := (hasContents_iff s _).mp hs
  have := inv_length_le s cs hinv
  rw [← hmap, List.length_map]
  exact this

theorem sizeDec_sizeInc (n : Nat) (h : n < MAX_CELLS) : sizeDec (sizeInc n) = n := by
  rw [sizeInc_eq n h]
  have := sizeDec_eq (n + 1) (by omega) (Nat.succ_pos n)
  rw [this]
  rfl

theorem insertHead_deleteValue [DecidableEq T] (x : T) (s : State T) (xs : List T)
    (hs : HasContents s xs) (hroom : s.heap.length < MAX_CELLS) :
    ∃ s1 s2, insertHead x s = .ok s1 ∧ deleteValue x s1 = .ok (true, s2) ∧
      HasContents s2 xs ∧ getSize s2 = getSize s ∧ s2.list = s.list := by
  obtain ⟨s1, hins, hs1, _⟩ := insertHead_contents x s xs hs hroom
  obtain ⟨s2, hdel, hs2, hsz⟩ := deleteValue_first s1 [] xs x (by simpa using hs1) (by simp)
  have h1 := hasContents_size s1 _ hs1
  have h0 := hasContents_size s xs hs
  have h2 := hasContents_size s2 _ hs2
  simp only [List.nil_append] at hs2 h2
  refine ⟨s1, s2, hins, hdel, hs2, by omega, ?_⟩
  have hins2 := insertHead_eq x s hroom
  rw [hins, Except.ok.injEq] at hins2
  subst hins2
  simp only [deleteValue, bind, Except.bind, deref, List.getElem?_concat_length, if_true, pure,
    Except.pure, Except.ok.injEq, Prod.mk.injEq, true_and] at hdel
  rw [← hdel]
  have hlen := hasContents_length_le s xs hs
  have hlt : s.list.size < MAX_CELLS := by
    have : s.list.size = xs.length := h0
    omega
  show LinkedList.mk s.list.head (sizeDec (sizeInc s.list.size)) = s.list
  rw [sizeDec_sizeInc _ hlt]

end Members

/-! ## Ownership of cells among several lists -/

section Ownership

variable {T : Type}

theorem reach_seg (st : Store T) : ∀ (cs : List (Nat × T)) (fuel : Nat) (p : Option Nat),
    Seg st p cs none → cs.length ≤ fuel → reach st fuel p = cs.map Prod.fst
  | [], fuel, p, h, _ => by
    rw [seg_nil] at h
    subst h
    cases fuel <;> rfl
  | c :: cs, 0, _, _, hl => absurd hl (by simp)
  | c :: cs, fuel + 1, p, h, hl => by
    rw [seg_cons] at h
    obtain ⟨hp, nx, hnx, hs⟩ := h
    subst hp
    have ih := reach_seg st cs fuel nx hs (Nat.le_of_succ_le_succ hl)
    simp only [reach, hnx, ih, List.map_cons]

theorem seg_agree (st st2 : Store T) : ∀ (cs : List (Nat × T)) (p q : Option Nat),
    (∀ a ∈ cs.map Prod.fst, st2[a]? = st[a]?) → Seg st p cs q → Seg st2 p cs q
  | [], _, _, _, h => (seg_nil _ _ _).mpr ((seg_nil _ _ _).mp h)
  | c :: cs, p, q, hag, h => by
    rw [seg_cons] at h ⊢
    obtain ⟨hp, nx, hnx, hs⟩ := h
    refine ⟨hp, nx, ?_, seg_agree st st2 cs nx q (fun a ha => hag a ?_) hs⟩
    · rw [hag c.1 (by simp)]
      exact hnx
    · simp only [List.map_cons, List.mem_cons]
      exact Or.inr ha

theorem seg_head_idx (st : Store T) (cs : List (Nat × T)) (p : Option Nat)
    (h : Seg st p cs none) : p = (cs.map Prod.fst)[0]? := by
  cases cs with
  | nil =>
    rw [seg_nil] at h
    rw [h]
    rfl
  | cons c cr =>
    rw [seg_start st c cr p none h]
    simp

theorem seg_next_idx (st : Store T) : ∀ (cs : List (Nat × T)) (p : Option Nat) (k b : Nat),
    Seg st p cs none → (cs.map Prod.fst)[k]? = some b →
    ∃ c, st[b]? = some c ∧ c.next = (cs.map Prod.fst)[k + 1]?
  | [], _, _, _, _, hk => by simp at hk
  | c :: cs, p, 0, b, h, hk => by
    rw [seg_cons] at h
    obtain ⟨_, nx, hnx, hs⟩ := h
    simp only [List.map_cons, List.getElem?_cons_zero, Option.some.injEq] at hk
    subst hk
    refine ⟨_, hnx, ?_⟩
    rw [List.map_cons, List.getElem?_cons_succ]
    exact seg_head_idx st cs nx hs
  | c :: cs, p, k + 1, b, h, hk => by
    rw [seg_cons] at h
    obtain ⟨_, nx, _, hs⟩ := h
    rw [List.map_cons, List.getElem?_cons_succ] at hk
    obtain ⟨d, hd, hnext⟩ := seg_next_idx st cs nx k b hs hk
    exact ⟨d, hd, by rw [List.map_cons, List.getElem?_cons_succ]; exact hnext⟩

theorem step_frame [DecidableEq T] (depth : Nat) (op : Op T) (s s2 : State T)
    (cs : List (Nat × T)) (h : Inv s cs) (hok : step depth op s = .ok s2) :
    ∃ cs2, Inv s2 cs2 ∧ s.heap.length ≤ s2.heap.length ∧
      (∀ a, a < s.heap.length → a ∉ cs.map Prod.fst → s2.heap[a]? = s.heap[a]?) ∧
      (∀ a ∈ cs2.map Prod.fst, a ∈ cs.map Prod.fst ∨ s.heap.length ≤ a) := by
  cases op with
  | insertHead v =>
    have hok2 : insertHead v s = .ok s2 := hok
    by_cases hroom : s.heap.length < MAX_CELLS
    · have hinv := insertHead_preserves v s s2 cs h hok2
      rw [insertHead_eq v s hroom, Except.ok.injEq] at hok2
      subst hok2
      refine ⟨_, hinv, by simp, fun a ha _ => List.getElem?_append_left ha, ?_⟩
      intro a ha
      simp only [List.map_cons, List.mem_cons] at ha
      rcases ha with rfl | ha
      · exact Or.inr (Nat.le_refl _)
      · exact Or.inl ha
    · rw [insertHead_full v s hroom] at hok2
      exact absurd hok2 (by simp)
  | insertTail v =>
    have hok2 : insertTail v s = .ok s2 := hok
    by_cases hroom : s.heap.length < MAX_CELLS
    · obtain ⟨s3, h3, hinv, hlen, hfr⟩ := insertTail_inv_frame v s cs h hroom
      rw [h3, Except.ok.injEq] at hok2
      subst hok2
      refine ⟨_, hinv, by omega, hfr, ?_⟩
      intro a ha
      simp only [List.map_append, List.map_cons, List.map_nil, List.mem_append,
        List.mem_singleton] at ha
      rcases ha with ha | rfl
      · exact Or.inl ha
      · exact Or.inr (Nat.le_refl _)
    · rw [insertTail_full v s hroom] at hok2
      exact absurd hok2 (by simp)
  | deleteValue v =>
    simp only [step, bind, Except.bind] at hok
    cases hd : deleteValue v s with
    | error e => simp [hd] at hok
    | ok r =>
      simp only [hd, pure, Except.pure, Except.ok.injEq] at hok
      obtain ⟨b, s3⟩ := r
      simp only at hok
      subst hok
      rcases split_first_match v cs with hne | ⟨c1, a, c2, hcs, hne⟩
      · rw [deleteValue_absent_inv v s cs h hne, Except.ok.injEq, Prod.mk.injEq] at hd
        obtain ⟨_, rfl⟩ := hd
        exact ⟨cs, h, Nat.le_refl _, fun _ _ _ => rfl, fun a ha => Or.inl ha⟩
      · subst hcs
        obtain ⟨s4, h4, hinv, hlen, hfr⟩ := deleteValue_found_inv_frame v s c1 c2 a h hne
        rw [h4, Except.ok.injEq, Prod.mk.injEq] at hd
        obtain ⟨_, rfl⟩ := hd
        refine ⟨c1 ++ c2, hinv, by omega, fun q _ hq => hfr q hq, ?_⟩
        intro q hq
        left
        simp only [List.map_append, List.map_cons, List.mem_append, List.mem_cons] at hq ⊢
        rcases hq with hq | hq
        · exact Or.inl hq
        · exact Or.inr (Or.inr hq)
  | clear =>
    have hok2 : clear depth s = .ok s2 := hok
    have hinv := clear_inv depth s s2 h.1 hok2
    rw [clear_ok_eq depth s s2 hok2] at hinv ⊢
    exact ⟨[], hinv, Nat.le_refl _, fun _ _ _ => rfl, by simp⟩

theorem reachFrom_none (w : World T) (i : Nat) (h : w.lists[i]? = none) :
    w.reachFrom i = [] := by
  simp only [World.reachFrom, h]

theorem reachFrom_of_inv (w : World T) (i : Nat) (l : LinkedList) (cs : List (Nat × T))
    (hl : w.lists[i]? = some l) (h : Inv (State.mk w.heap l) cs) :
    w.reachFrom i = cs.map Prod.fst := by
  simp only [World.reachFrom, hl]
  exact reach_seg w.heap cs w.heap.length l.head h.2.1 (inv_length_le _ cs h)

theorem reachFrom_cases (w : World T) (hw : WInv w) (k : Nat) :
    (w.lists[k]? = none ∧ w.reachFrom k = []) ∨
    ∃ l cs, w.lists[k]? = some l ∧ Inv (State.mk w.heap l) cs ∧
      w.reachFrom k = cs.map Prod.fst := by
  cases hk : w.lists[k]? with
  | none => exact Or.inl ⟨rfl, reachFrom_none w k hk⟩
  | some l =>
    obtain ⟨cs, hinv⟩ := hw.2.1 k l hk
    exact Or.inr ⟨l, cs, rfl, hinv, reachFrom_of_inv w k l cs hk hinv⟩

theorem reachFrom_lt (w : World T) (hw : WInv w) (k a : Nat) (h : a ∈ w.reachFrom k) :
    a < w.heap.length := by
  rcases reachFrom_cases w hw k with ⟨_, hr⟩ | ⟨l, cs, _, hinv, hr⟩
  · rw [hr] at h
    exact absurd h (List.not_mem_nil a)
  · rw [hr] at h
    exact seg_addr_lt _ _ _ _ hinv.2.1 a h

theorem winv_init : WInv (World.init T) := by
  refine ⟨Nat.zero_le _, fun i l h => ?_, fun i j a _ h => ?_⟩
  · simp [World.init] at h
  · simp [World.reachFrom, World.init] at h

theorem winv_construct (w : World T) (hw : WInv w) :
    WInv { heap := w.heap, lists := w.lists ++ [LinkedList.new] } := by
  have hreach : ∀ i, (World.mk w.heap (w.lists ++ [LinkedList.new])).reachFrom i
      = w.reachFrom i := by
    intro i
    rcases Nat.lt_trichotomy i w.lists.length with hlt | heq | hgt
    · simp only [World.reachFrom, List.getElem?_append_left hlt]
    · subst heq
      have hnone : w.lists[w.lists.length]? = none := List.getElem?_eq_none (Nat.le_refl _)
      rw [reachFrom_none w _ hnone]
      simp only [World.reachFrom, List.getElem?_concat_length, LinkedList.new]
      cases w.heap.length <;> rfl
    · have h1 : w.lists[i]? = none := List.getElem?_eq_none (Nat.le_of_lt hgt)
      have h2 : (w.lists ++ [LinkedList.new])[i]? = none :=
        List.getElem?_eq_none (by simp; omega)
      rw [reachFrom_none w i h1, reachFrom_none _ i h2]
  refine ⟨hw.1, fun i l h => ?_, fun i j a hij h => ?_⟩
  · simp only at h
    rcases Nat.lt_or_ge i w.lists.length with hlt | hge
    · rw [List.getElem?_append_left hlt] at h
      exact hw.2.1 i l h
    · rw [List.getElem?_append_right hge] at h
      have hl : l = LinkedList.new := by
        cases hi : i - w.lists.length with
        | zero =>
          rw [hi] at h
          simpa using h.symm
        | succ n =>
          rw [hi] at h
          simp at h
      subst hl
      exact ⟨[], hw.1, Seg.nil _, rfl⟩
  · rw [hreach] at h ⊢
    exact hw.2.2 i j a hij h

theorem winv_set (w : World T) (hw : WInv w) (i : Nat) (l : LinkedList)
    (s2 : State T) (ci ci2 : List (Nat × T)) (hl : w.lists[i]? = some l)
    (hci : Inv (State.mk w.heap l) ci) (hinv2 : Inv s2 ci2)
    (hfr : ∀ a, a < w.heap.length → a ∉ ci.map Prod.fst → s2.heap[a]? = w.heap[a]?)
    (hsub : ∀ a ∈ ci2.map Prod.fst, a ∈ ci.map Prod.fst ∨ w.heap.length ≤ a) :
    WInv { heap := s2.heap, lists := w.lists.set i s2.list } := by
  have hri := reachFrom_of_inv w i l ci hl hci
  have hilt : i < w.lists.length := by
    by_contra hge
    rw [List.getElem?_eq_none (Nat.le_of_not_lt hge)] at hl
    exact absurd hl (by simp)
  have hself : (w.lists.set i s2.list)[i]? = some s2.list := List.getElem?_set_self hilt
  -- a list other than the one called keeps its chain
  have hother : ∀ j lj cj, j ≠ i → w.lists[j]? = some lj → Inv (State.mk w.heap lj) cj →
      Inv (State.mk s2.heap lj) cj := by
    intro j lj cj hji hlj hcj
    have hrj := reachFrom_of_inv w j lj cj hlj hcj
    refine ⟨hinv2.1, ?_, hcj.2.2⟩
    refine seg_agree w.heap s2.heap cj _ _ (fun a ha => ?_) hcj.2.1
    refine hfr a (seg_addr_lt _ _ _ _ hcj.2.1 a ha) ?_
    rw [← hri]
    exact hw.2.2 j i a hji (by rw [hrj]; exact ha)
  have hreach_self : (World.mk s2.heap (w.lists.set i s2.list)).reachFrom i
      = ci2.map Prod.fst :=
    reachFrom_of_inv _ i s2.list ci2 hself hinv2
  have hreach_other : ∀ j, j ≠ i →
      (World.mk s2.heap (w.lists.set i s2.list)).reachFrom j = w.reachFrom j := by
    intro j hji
    have hget : (w.lists.set i s2.list)[j]? = w.lists[j]? :=
      List.getElem?_set_ne (fun e => hji e.symm)
    rcases reachFrom_cases w hw j with ⟨hn, hr⟩ | ⟨lj, cj, hlj, hcj, hr⟩
    · rw [hr]
      exact reachFrom_none _ j (by rw [hget]; exact hn)
    · rw [hr]
      exact reachFrom_of_inv _ j lj cj (by rw [hget]; exact hlj) (hother j lj cj hji hlj hcj)
  have hfresh : ∀ j a, j ≠ i → a ∈ ci2.map Prod.fst → a ∉ w.reachFrom j := by
    intro j a hji ha hmem
    rcases hsub a ha with hold | hnew
    · exact hw.2.2 i j a (fun e => hji e.symm) (by rw [hri]; exact hold) hmem
    · have := reachFrom_lt w hw j a hmem
      exact absurd this (Nat.not_lt.mpr hnew)
  refine ⟨hinv2.1, fun j lj hlj => ?_, fun j k a hjk hj hk => ?_⟩
  · by_cases hji : j = i
    · subst hji
      rw [hself, Option.some.injEq] at hlj
      subst hlj
      exact ⟨ci2, hinv2⟩
    · have hget : (w.lists.set i s2.list)[j]? = w.lists[j]? :=
        List.getElem?_set_ne (fun e => hji e.symm)
      rw [hget] at hlj
      obtain ⟨cj, hcj⟩ := hw.2.1 j lj hlj
      exact ⟨cj, hother j lj cj hji hlj hcj⟩
  · by_cases hji : j = i
    · subst hji
      have hki : k ≠ j := fun e => hjk e.symm
      rw [hreach_self] at hj
      rw [hreach_other k hki] at hk
      exact hfresh k a hki hj hk
    · rw [hreach_other j hji] at hj
      by_cases hki : k = i
      · subst hki
        rw [hreach_self] at hk
        exact hfresh j a hji hk hj
      · rw [hreach_other k hki] at hk
        exact hw.2.2 j k a hjk hj hk

theorem winv_call [DecidableEq T] (depth : Nat) (w : World T) (hw : WInv w) (i : Nat)
    (l : LinkedList) (op : Op T) (s2 : State T) (hl : w.lists[i]? = some l)
    (hok : step depth op (State.mk w.heap l) = .ok s2) :
    WInv { heap := s2.heap, lists := w.lists.set i s2.list } := by
  obtain ⟨ci, hci⟩ := hw.2.1 i l hl
  obtain ⟨ci2, hinv2, _, hfr, hsub⟩ := step_frame depth op _ s2 ci hci hok
  exact winv_set w hw i l s2 ci ci2 hl hci hinv2 hfr hsub

theorem winv_clear (w : World T) (hw : WInv w) (i : Nat) (l : LinkedList)
    (hl : w.lists[i]? = some l) :
    WInv { heap := w.heap, lists := w.lists.set i { head := none, size := 0 } } := by
  obtain ⟨ci, hci⟩ := hw.2.1 i l hl
  exact winv_set w hw i l (State.mk w.heap (LinkedList.mk none 0)) ci [] hl hci
    ⟨hw.1, Seg.nil _, rfl⟩ (fun _ _ _ => rfl) (by simp)

theorem wstep_call_eq [DecidableEq T] (depth : Nat) (i : Nat) (op : Op T) (w : World T)
    (hop : op ≠ Op.clear) :
    wstep depth (WOp.call i op) w =
      match w.lists[i]? with
      | some l => do
        let s ← step depth op { heap := w.heap, list := l }
        pure { heap := s.heap, lists := w.lists.set i s.list }
      | none => .error .dangling := by
  cases op with
  | clear => exact absurd rfl hop
  | insertHead v => rfl
  | insertTail v => rfl
  | deleteValue v => rfl

theorem wstep_winv [DecidableEq T] (depth : Nat) (op : WOp T) (w w2 : World T) (hw : WInv w)
    (hnc : op.isCopy = false) (hok : wstep depth op w = .ok w2) : WInv w2 := by
  cases op with
  | construct =>
    simp only [wstep, pure, Except.pure, Except.ok.injEq] at hok
    subst hok
    exact winv_construct w hw
  | copy i => simp [WOp.isCopy] at hnc
  | call i op =>
    by_cases hop : op = Op.clear
    · subst hop
      simp only [wstep] at hok
      cases hl : w.lists[i]? with
      | none => simp [hl] at hok
      | some l =>
        simp only [hl, bind, Except.bind] at hok
        cases hr : World.release w depth (Owner.header i) l.head with
        | error e => simp [hr] at hok
        | ok u =>
          simp only [hr, pure, Except.pure, Except.ok.injEq] at hok
          subst hok
          exact winv_clear w hw i l hl
    · rw [wstep_call_eq depth i op w hop] at hok
      cases hl : w.lists[i]? with
      | none => simp [hl] at hok
      | some l =>
        simp only [hl, bind, Except.bind] at hok
        cases hst : step depth op (State.mk w.heap l) with
        | error e => simp [hst] at hok
        | ok s2 =>
          simp only [hst, pure, Except.pure, Except.ok.injEq] at hok
          subst hok
          exact winv_call depth w hw i l op s2 hl hst

theorem wrun_winv [DecidableEq T] (depth : Nat) : ∀ (ops : List (WOp T)) (w w2 : World T),
    WInv w → (∀ op ∈ ops, op.isCopy = false) → wrun depth ops w = .ok w2 → WInv w2
  | [], w, w2, hw, _, hok => by
    simp only [wrun, pure, Except.pure, Except.ok.injEq] at hok
    subst hok
    exact hw
  | op :: ops, w, w2, hw, hnc, hok => by
    simp only [wrun, bind, Except.bind] at hok
    cases hst : wstep depth op w with
    | error e => simp [hst] at hok
    | ok w1 =>
      simp only [hst] at hok
      exact wrun_winv depth ops w1 w2
        (wstep_winv depth op w w1 hw (hnc op (List.mem_cons_self _ _)) hst)
        (fun o ho => hnc o (List.mem_cons_of_mem _ ho)) hok

theorem idx_unique (l : List Nat) (hnd : l.Nodup) (i j a : Nat)
    (hi : l[i]? = some a) (hj : l[j]? = some a) : i = j := by
  have hlt : i < l.length := (List.getElem?_eq_some.mp hi).1
  exact List.getElem?_inj hlt hnd (by rw [hi, hj])

theorem owner_header_cases (w : World T) (hw : WInv w) (i : Nat) (l : LinkedList)
    (ci : List (Nat × T)) (hl : w.lists[i]? = some l) (hci : Inv (State.mk w.heap l) ci)
    (k a : Nat) (hk : (ci.map Prod.fst)[k]? = some a) (j : Nat)
    (ho : w.Owns (Owner.header j) a) : j = i ∧ k = 0 := by
  have hri := reachFrom_of_inv w i l ci hl hci
  have hai : a ∈ w.reachFrom i := by
    rw [hri]
    exact List.getElem?_mem hk
  obtain ⟨lj, hlj, hhead⟩ := Option.bind_eq_some.mp ho
  obtain ⟨cj, hcj⟩ := hw.2.1 j lj hlj
  have hrj := reachFrom_of_inv w j lj cj hlj hcj
  have h0 : (cj.map Prod.fst)[0]? = some a := by
    rw [← seg_head_idx _ _ _ hcj.2.1]
    exact hhead
  have haj : a ∈ w.reachFrom j := by
    rw [hrj]
    exact List.getElem?_mem h0
  have hji : j = i := by
    by_contra hne
    exact hw.2.2 j i a hne haj hai
  subst hji
  refine ⟨rfl, ?_⟩
  have hsame : cj.map Prod.fst = ci.map Prod.fst := by rw [← hrj, hri]
  rw [hsame] at h0
  exact idx_unique _ (seg_nodup _ _ _ hci.2.1) k 0 a hk h0

theorem owner_cell_cases (w : World T) (hw : WInv w) (i : Nat) (l : LinkedList)
    (ci : List (Nat × T)) (hl : w.lists[i]? = some l) (hci : Inv (State.mk w.heap l) ci)
    (k a : Nat) (hk : (ci.map Prod.fst)[k]? = some a) (b : Nat)
    (ho : w.Owns (Owner.cell b) a) :
    ∃ t, k = t + 1 ∧ (ci.map Prod.fst)[t]? = some b := by
  have hri := reachFrom_of_inv w i l ci hl hci
  have hai : a ∈ w.reachFrom i := by
    rw [hri]
    exact List.getElem?_mem hk
  obtain ⟨⟨m, _, hbm⟩, hnext⟩ := ho
  rcases reachFrom_cases w hw m with ⟨_, hr⟩ | ⟨lm, cm, hlm, hcm, hrm⟩
  · rw [hr] at hbm
    exact absurd hbm (List.not_mem_nil b)
  · rw [hrm] at hbm
    obtain ⟨t, ht⟩ := List.mem_iff_getElem?.mp hbm
    obtain ⟨c, hc, hcn⟩ := seg_next_idx _ cm _ t b hcm.2.1 ht
    rw [hc] at hnext
    have hnext2 : c.next = some a := hnext
    rw [hcn] at hnext2
    have ham : a ∈ w.reachFrom m := by
      rw [hrm]
      exact List.getElem?_mem hnext2
    have hmi : m = i := by
      by_contra hne
      exact hw.2.2 m i a hne ham hai
    subst hmi
    have hsame : cm.map Prod.fst = ci.map Prod.fst := by rw [← hrm, hri]
    rw [hsame] at ht hnext2
    exact ⟨t, idx_unique _ (seg_nodup _ _ _ hci.2.1) k (t + 1) a hk hnext2, ht⟩

theorem singleOwner_of_winv (w : World T) (hw : WInv w) : w.SingleOwner := by
  refine ⟨hw.2.2, ?_⟩
  rintro a ⟨i, hilt, hai⟩
  rcases reachFrom_cases w hw i with ⟨_, hr⟩ | ⟨l, ci, hl, hci, hri⟩
  · rw [hr] at hai
    exact absurd hai (List.not_mem_nil a)
  rw [hri] at hai
  obtain ⟨k, hk⟩ := List.mem_iff_getElem?.mp hai
  have hnd := seg_nodup _ _ _ hci.2.1
  cases k with
  | zero =>
    refine ⟨Owner.header i, ?_, ?_⟩
    · show w.lists[i]?.bind LinkedList.head = some a
      rw [hl]
      show l.head = some a
      rw [← hk]
      exact seg_head_idx _ _ _ hci.2.1
    · intro o ho
      cases o with
      | header j => rw [(owner_header_cases w hw i l ci hl hci 0 a hk j ho).1]
      | cell b =>
        obtain ⟨t, ht, _⟩ := owner_cell_cases w hw i l ci hl hci 0 a hk b ho
        exact absurd ht (by omega)
  | succ t =>
    have htlt : t < (ci.map Prod.fst).length := by
      have := (List.getElem?_eq_some.mp hk).1
      omega
    obtain ⟨b, hb⟩ : ∃ b, (ci.map Prod.fst)[t]? = some b :=
      ⟨_, List.getElem?_eq_some.mpr ⟨htlt, rfl⟩⟩
    refine ⟨Owner.cell b, ⟨⟨i, hilt, ?_⟩, ?_⟩, ?_⟩
    · rw [hri]
      exact List.getElem?_mem hb
    · obtain ⟨c, hc, hcn⟩ := seg_next_idx _ ci _ t b hci.2.1 hb
      rw [hc]
      show c.next = some a
      rw [hcn]
      exact hk
    · intro o ho
      cases o with
      | header j =>
        have := (owner_header_cases w hw i l ci hl hci (t + 1) a hk j ho).2
        exact absurd this (by omega)
      | cell b2 =>
        obtain ⟨t2, ht2, hb2⟩ := owner_cell_cases w hw i l ci hl hci (t + 1) a hk b2 ho
        have ht : t2 = t := by omega
        subst ht
        rw [hb] at hb2
        rw [Option.some.inj hb2]

theorem owns_iff_ownerAt (w : World T) (hw : WInv w) (i : Nat) (l : LinkedList)
    (cs : List (Nat × T)) (hl : w.lists[i]? = some l)
    (hcs : cells (State.mk w.heap l) = .ok cs) (k a : Nat)
    (hk : (cs.map Prod.fst)[k]? = some a) (o : Owner) :
    w.Owns o a ↔ ownerAt i (cs.map Prod.fst) k = some o := by
  have hseg := (cells_ok_iff _ cs).mp hcs
  obtain ⟨ci, hci⟩ := hw.2.1 i l hl
  have hcc : cs = ci := seg_det _ _ _ _ hseg hci.2.1
  subst hcc
  have hilt : i < w.lists.length := by
    by_contra hge
    rw [List.getElem?_eq_none (Nat.le_of_not_lt hge)] at hl
    exact absurd hl (by simp)
  have hri := reachFrom_of_inv w i l cs hl hci
  constructor
  · intro ho
    cases o with
    | header j =>
      obtain ⟨hj, hk0⟩ := owner_header_cases w hw i l cs hl hci k a hk j ho
      subst hj hk0
      rfl
    | cell b =>
      obtain ⟨t, ht, hb⟩ := owner_cell_cases w hw i l cs hl hci k a hk b ho
      subst ht
      simp only [ownerAt, hb, Option.map_some']
  · intro ho
    cases k with
    | zero =>
      simp only [ownerAt, Option.some.injEq] at ho
      subst ho
      show w.lists[i]?.bind LinkedList.head = some a
      rw [hl]
      show l.head = some a
      rw [← hk]
      exact seg_head_idx _ _ _ hci.2.1
    | succ t =>
      simp only [ownerAt, Option.map_eq_some'] at ho
      obtain ⟨b, hb, rfl⟩ := ho
      refine ⟨⟨i, hilt, ?_⟩, ?_⟩
      · rw [hri]
        exact List.getElem?_mem hb
      · obtain ⟨c, hc, hcn⟩ := seg_next_idx _ cs _ t b hci.2.1 hb
        rw [hc]
        show c.next = some a
        rw [hcn]
        exact hk

theorem otherOwner_false (w : World T) (hw : WInv w) (i : Nat) (l : LinkedList)
    (cs : List (Nat × T)) (hl : w.lists[i]? = some l) (hci : Inv (State.mk w.heap l) cs)
    (k a : Nat) (o : Owner) (hk : (cs.map Prod.fst)[k]? = some a)
    (ho : ownerAt i (cs.map Prod.fst) k = some o) : w.otherOwner o a = false := by
  have hcells : cells (State.mk w.heap l) = .ok cs := (cells_ok_iff _ cs).mpr hci.2.1
  unfold World.otherOwner
  rw [List.any_eq_false]
  intro o2 _
  simp only [decide_eq_true_eq, not_and]
  intro hne hown
  have := (owns_iff_ownerAt w hw i l cs hl hcells k a hk o2).mp hown
  rw [ho, Option.some.injEq] at this
  exact hne this.symm

theorem world_release_suffix (w : World T) (hw : WInv w) (i : Nat) (l : LinkedList)
    (cs : List (Nat × T)) (hl : w.lists[i]? = some l) (hci : Inv (State.mk w.heap l) cs) :
    ∀ (rest front : List (Nat × T)) (p : Option Nat) (o : Owner) (depth : Nat),
    cs = front ++ rest → Seg w.heap p rest none →
    ownerAt i (cs.map Prod.fst) front.length = some o →
    World.release w depth o p = release w.heap depth p
  | [], front, p, o, depth, _, hseg, _ => by
    rw [seg_nil] at hseg
    subst hseg
    cases depth <;> rfl
  | c :: rest, front, p, o, depth, hcs, hseg, ho => by
    rw [seg_cons] at hseg
    obtain ⟨hp, nx, hnx, hrest⟩ := hseg
    subst hp
    have hk : (cs.map Prod.fst)[front.length]? = some c.1 := by
      rw [hcs, List.map_append, List.map_cons]
      rw [List.getElem?_append_right (by simp)]
      simp
    have hoo := otherOwner_false w hw i l cs hl hci front.length c.1 o hk ho
    cases depth with
    | zero => simp only [World.release, hoo, release, Bool.false_eq_true, if_false]
    | succ d =>
      have ih := world_release_suffix w hw i l cs hl hci rest (front ++ [c]) nx
        (Owner.cell c.1) d (by rw [hcs, List.append_assoc]; rfl) hrest
        (by
          simp only [List.length_append, List.length_singleton, ownerAt, hk,
            Option.map_some'])
      simp only [World.release, hoo, release, Bool.false_eq_true, if_false, bind, Except.bind,
        deref_some w.heap c.1 _ hnx, ih]

theorem world_release_eq (w : World T) (hw : WInv w) (i : Nat) (l : LinkedList)
    (hl : w.lists[i]? = some l) (depth : Nat) :
    World.release w depth (Owner.header i) l.head = release w.heap depth l.head := by
  obtain ⟨cs, hci⟩ := hw.2.1 i l hl
  exact world_release_suffix w hw i l cs hl hci cs [] l.head (Owner.header i) depth rfl
    hci.2.1 rfl

theorem wstep_clear_eq [DecidableEq T] (w : World T) (hw : WInv w) (depth i : Nat) :
    wstep depth (WOp.call i Op.clear) w =
      match w.lists[i]? with
      | some l => do
        let s ← step depth Op.clear { heap := w.heap, list := l }
        pure { heap := s.heap, lists := w.lists.set i s.list }
      | none => .error .dangling := by
  cases hl : w.lists[i]? with
  | none => simp only [wstep, hl]
  | some l =>
    simp only [wstep, hl, step, clear, bind, Except.bind, world_release_eq w hw i l hl depth]
    cases release w.heap depth l.head <;> rfl

end Ownership

/-! ## The specification, claim by claim -/

section Claims

variable {T : Type}

/-- Claim C1: in a list state whose contents are `pre ++ [x] ++ post` with `x`
not occurring in `pre`, `deleteValue(x)` returns `true`, the contents become
exactly `pre ++ post` (only the first occurrence goes; later duplicates of `x`
and the order of all other elements are kept) and `getSize()` decreases by
exactly one. In particular contents `[a, x, b, x]` become `[a, b, x]`. -/
theorem C1_deleteValue_removes_first_occurrence [DecidableEq T] (s : State T)
    (pre post : List T) (x : T) (hs : HasContents s (pre ++ [x] ++ post)) (hx : x ∉ pre) :
    (∃ s2, deleteValue x s = .ok (true, s2) ∧ HasContents s2 (pre ++ post) ∧
      getSize s2 + 1 = getSize s) ∧
    (∀ (t : State T) (a b : T), HasContents t [a, x, b, x] →
      ∃ t2, deleteValue x t = .ok (true, t2) ∧ HasContents t2 [a, b, x]) := by
  refine ⟨deleteValue_first s pre post x hs hx, ?_⟩
  intro t a b ht
  by_cases hax : x = a
  · subst hax
    obtain ⟨t2, h1, h2, _⟩ := deleteValue_first t [] [x, b, x] x ht (by simp)
    exact ⟨t2, h1, h2⟩
  · obtain ⟨t2, h1, h2, _⟩ := deleteValue_first t [a] [b, x] x ht (by simpa using hax)
    exact ⟨t2, h1, h2⟩

theorem C1_deleteValue_removes_first_occurrence_witness :
    (HasContents sampleDup ([1] ++ [7] ++ [2, 7]) ∧ (7 : Int) ∉ [1]) ∧
    ((∃ s2, deleteValue 7 sampleDup = .ok (true, s2) ∧ HasContents s2 ([1] ++ [2, 7]) ∧
        getSize s2 + 1 = getSize sampleDup) ∧
      (∀ (t : State Int) (a b : Int), HasContents t [a, 7, b, 7] →
        ∃ t2, deleteValue 7 t = .ok (true, t2) ∧ HasContents t2 [a, b, 7])) :=
  ⟨⟨by decide, by decide⟩,
    C1_deleteValue_removes_first_occurrence sampleDup [1] [2, 7] 7 (by decide) (by decide)⟩

/-- Claim C2: in a list state in which `x` does not occur (the empty list
included), `deleteValue(x)` returns `false` and leaves the state as it was,
contents, order and `getSize()` included, so that repeating the call any
number of times changes nothing. -/
theorem C2_deleteValue_absent_is_noop [DecidableEq T] (s : State T) (xs : List T) (x : T)
    (hs : HasContents s xs) (hx : x ∉ xs) :
    deleteValue x s = .ok (false, s) ∧ ∀ n, deleteValueTimes x n s = .ok s :=
  ⟨deleteValue_absent s xs x hs hx,
    deleteValueTimes_absent s x (deleteValue_absent s xs x hs hx)⟩

theorem C2_deleteValue_absent_is_noop_witness :
    (HasContents sampleDup [1, 7, 2, 7] ∧ (9 : Int) ∉ [1, 7, 2, 7]) ∧
    (deleteValue 9 sampleDup = .ok (false, sampleDup) ∧
      ∀ n, deleteValueTimes 9 n sampleDup = .ok sampleDup) :=
  ⟨⟨by decide, by decide⟩,
    C2_deleteValue_absent_is_noop sampleDup [1, 7, 2, 7] 9 (by decide) (by decide)⟩

/-- Claim C3: in a list state with contents `xs`, `insertHead(v)` yields the
contents `v :: xs` whenever the store has room for the new cell; hence calling
`insertHead` with `v1, ..., vn` in that order puts `vn, ..., v1` in front of
the contents, which on an empty list is the reverse of the call order. -/
theorem C3_insertHead_prepends [DecidableEq T] (depth : Nat) (s : State T) (xs : List T)
    (hs : HasContents s xs) :
    (∀ v, s.heap.length < MAX_CELLS →
      ∃ s2, insertHead v s = .ok s2 ∧ HasContents s2 (v :: xs)) ∧
    (∀ vs : List T, s.heap.length + vs.length ≤ MAX_CELLS →
      ∃ s2, run depth (vs.map Op.insertHead) s = .ok s2 ∧ HasContents s2 (vs.reverse ++ xs)) := by
  refine ⟨?_, fun vs hroom => run_insertHead_contents depth vs s xs hs hroom⟩
  intro v hroom
  obtain ⟨s2, h1, h2, _⟩ := insertHead_contents v s xs hs hroom
  exact ⟨s2, h1, h2⟩

theorem C3_insertHead_prepends_witness :
    HasContents (State.init Int) [] ∧
    ((∀ v : Int, (State.init Int).heap.length < MAX_CELLS →
      ∃ s2, insertHead v (State.init Int) = .ok s2 ∧ HasContents s2 (v :: [])) ∧
    (∀ vs : List Int, (State.init Int).heap.length + vs.length ≤ MAX_CELLS →
      ∃ s2, run 8 (vs.map Op.insertHead) (State.init Int) = .ok s2 ∧
        HasContents s2 (vs.reverse ++ []))) :=
  ⟨by decide, C3_insertHead_prepends 8 (State.init Int) [] (by decide)⟩

/-- Claim C4: in a list state with contents `xs`, `insertTail(v)` yields the
contents `xs ++ [v]` whenever the store has room for the new cell (on the
empty list the new cell becomes the first cell); hence calling `insertTail`
with `v1, ..., vn` in that order appends `v1, ..., vn`, which on an empty list
is the call order. -/
theorem C4_insertTail_appends [DecidableEq T] (depth : Nat) (s : State T) (xs : List T)
    (hs : HasContents s xs) :
    (∀ v, s.heap.length < MAX_CELLS →
      ∃ s2, insertTail v s = .ok s2 ∧ HasContents s2 (xs ++ [v])) ∧
    (∀ vs : List T, s.heap.length + vs.length ≤ MAX_CELLS →
      ∃ s2, run depth (vs.map Op.insertTail) s = .ok s2 ∧ HasContents s2 (xs ++ vs)) := by
  refine ⟨?_, fun vs hroom => run_insertTail_contents depth vs s xs hs hroom⟩
  intro v hroom
  obtain ⟨s2, h1, h2, _⟩ := insertTail_contents v s xs hs hroom
  exact ⟨s2, h1, h2⟩

theorem C4_insertTail_appends_witness :
    HasContents (State.init Int) [] ∧
    ((∀ v : Int, (State.init Int).heap.length < MAX_CELLS →
      ∃ s2, insertTail v (State.init Int) = .ok s2 ∧ HasContents s2 ([] ++ [v])) ∧
    (∀ vs : List Int, (State.init Int).heap.length + vs.length ≤ MAX_CELLS →
      ∃ s2, run 8 (vs.map Op.insertTail) (State.init Int) = .ok s2 ∧
        HasContents s2 ([] ++ vs))) :=
  ⟨by decide, C4_insertTail_appends 8 (State.init Int) [] (by decide)⟩

/-- Claim C5: in every state reached from a newly constructed list by a finite
sequence of `insertHead`, `insertTail`, `deleteValue` and `clear` calls, the
traversal from `head` terminates, visits no cell twice (the chain is acyclic)
and visits exactly `getSize()` cells; this holds whatever room the call stack
has for the destructor calls of `clear`. -/
theorem C5_size_counts_acyclic_chain [DecidableEq T] (depth : Nat) (ops : List (Op T))
    (s : State T) (h : run depth ops (State.init T) = .ok s) :
    ∃ cs, cells s = .ok cs ∧ (cs.map Prod.fst).Nodup ∧ cs.length = getSize s := by
  obtain ⟨cs, hinv⟩ := run_preserves depth ops (State.init T) s [] init_inv h
  exact ⟨cs, (cells_ok_iff s cs).mpr hinv.2.1, seg_nodup _ _ _ hinv.2.1, hinv.2.2.symm⟩

theorem C5_size_counts_acyclic_chain_witness :
    run 8 scenarioOps (State.init Int) = .ok scenarioEnd ∧
    ∃ cs, cells scenarioEnd = .ok cs ∧ (cs.map Prod.fst).Nodup ∧
      cs.length = getSize scenarioEnd :=
  ⟨by decide, C5_size_counts_acyclic_chain 8 scenarioOps scenarioEnd (by decide)⟩

/-- Claim C6: after a finite sequence of `insertHead`, `insertTail` and
`deleteValue` calls on a newly constructed list, with `k` insertions and `j`
`deleteValue` calls that returned `true`, `j` does not exceed `k` and
`getSize()` is exactly `k - j`, a value of `size_t`; the next `deleteValue`
that returns `true` finds `getSize()` positive and takes exactly one off, and
the next insertion adds exactly one: the size field never wraps around. -/
theorem C6_size_is_insertions_minus_deletions [DecidableEq T] (depth : Nat)
    (ops : List (Op T)) (s : State T) (k j : Nat) (hnc : ∀ op ∈ ops, op ≠ Op.clear)
    (h : runTally depth ops (State.init T) 0 0 = .ok (s, k, j)) :
    j ≤ k ∧ getSize s = k - j ∧ getSize s < SIZE_MOD ∧
    (∀ v s2, deleteValue v s = .ok (true, s2) →
      0 < getSize s ∧ getSize s2 + 1 = getSize s) ∧
    (∀ v s2, insertHead v s = .ok s2 ∨ insertTail v s = .ok s2 →
      getSize s2 = getSize s + 1 ∧ getSize s2 < SIZE_MOD) := by
  obtain ⟨cs, hinv, hk⟩ :=
    runTally_preserves depth ops (State.init T) s [] 0 0 k j init_inv rfl hnc h
  have hle := inv_length_le s cs hinv
  have hmax := hinv.1
  have hsucc := max_cells_succ
  have hsz : getSize s = cs.length := hinv.2.2
  refine ⟨by omega, by omega, by omega, ?_, ?_⟩
  · intro v s2 hdel
    obtain ⟨cs2, hinv2, hlen⟩ := deleteValue_preserves v s s2 true cs hinv hdel
    have hsz2 : getSize s2 = cs2.length := hinv2.2.2
    simp only [if_true] at hlen
    omega
  · intro v s2 hins
    have hinv2 : ∃ cs2, Inv s2 cs2 ∧ cs2.length = cs.length + 1 := by
      rcases hins with hins | hins
      · exact ⟨_, insertHead_preserves v s s2 cs hinv hins, by simp⟩
      · exact ⟨_, insertTail_preserves v s s2 cs hinv hins, by simp⟩
    obtain ⟨cs2, hi2, hlen⟩ := hinv2
    have hsz2 : getSize s2 = cs2.length := hi2.2.2
    have hle2 := inv_length_le s2 cs2 hi2
    have hmax2 := hi2.1
    omega

theorem C6_size_is_insertions_minus_deletions_witness :
    ((∀ op ∈ scenarioOps, op ≠ Op.clear) ∧
      runTally 8 scenarioOps (State.init Int) 0 0 = .ok (scenarioEnd, 5, 2)) ∧
    (2 ≤ 5 ∧ getSize scenarioEnd = 5 - 2 ∧ getSize scenarioEnd < SIZE_MOD ∧
      (∀ v s2, deleteValue v scenarioEnd = .ok (true, s2) →
        0 < getSize scenarioEnd ∧ getSize s2 + 1 = getSize scenarioEnd) ∧
      (∀ v s2, insertHead v scenarioEnd = .ok s2 ∨ insertTail v scenarioEnd = .ok s2 →
        getSize s2 = getSize scenarioEnd + 1 ∧ getSize s2 < SIZE_MOD)) :=
  ⟨⟨by decide, by decide⟩,
    C6_size_is_insertions_minus_deletions 8 scenarioOps scenarioEnd 5 2 (by decide)
      (by decide)⟩

/-- Claim C7: in a list state with contents `xs`, `search(x)` returns `true`
if and only if `x` is one of `xs`; in particular it returns `false` on the
empty list for every `x`. -/
theorem C7_search_iff_member [DecidableEq T] (s : State T) (xs : List T) (x : T)
    (hs : HasContents s xs) :
    search x s = .ok (decide (x ∈ xs)) ∧ (search x s = .ok true ↔ x ∈ xs) ∧
    (xs = [] → search x s = .ok false) := by
  have h := search_contents s xs x hs
  refine ⟨h, ?_, ?_⟩
  · rw [h]
    simp
  · rintro rfl
    rw [h]
    simp

theorem C7_search_iff_member_witness :
    HasContents sampleDup [1, 7, 2, 7] ∧
    (search 2 sampleDup = .ok (decide ((2 : Int) ∈ [1, 7, 2, 7])) ∧
      (search 2 sampleDup = .ok true ↔ (2 : Int) ∈ [1, 7, 2, 7]) ∧
      (([1, 7, 2, 7] : List Int) = [] → search 2 sampleDup = .ok false)) :=
  ⟨by decide, C7_search_iff_member sampleDup [1, 7, 2, 7] 2 (by decide)⟩

/-- Claim C8: on a list state whose chain is no longer than the nested `~Node`
calls the call stack has room for, `clear()` returns, `isEmpty()` is then
`true` and `getSize()` is `0`, the data members are those of a newly
constructed list, the contents are empty, the result is again a list state
and a second `clear()` changes nothing. On a longer chain the release of
`head` runs out of stack inside the nested destructors and `clear()` does not
return: there the code does not do what the claim says. -/
theorem C8_clear_resets_unless_chain_too_long (depth : Nat) (s : State T) (xs : List T)
    (hs : HasContents s xs) :
    (xs.length ≤ depth →
      ∃ s2, clear depth s = .ok s2 ∧ isEmpty s2 = true ∧ getSize s2 = 0 ∧
        s2.list = LinkedList.new ∧ contents s2 = .ok [] ∧ HasContents s2 [] ∧
        clear depth s2 = .ok s2) ∧
    (depth < xs.length → clear depth s = .error .stackOverflow) := by
  obtain ⟨cs, hinv, hmap⟩ := (hasContents_iff s _).mp hs
  have hlen : cs.length = xs.length := by rw [← hmap, List.length_map]
  refine ⟨fun hd => ?_, fun hd => clear_overflows depth s cs hinv (by omega)⟩
  have hc : contents (State.mk s.heap LinkedList.new) = .ok [] := rfl
  refine ⟨_, clear_fits depth s cs hinv (by omega), rfl, rfl, rfl, hc, ⟨hs.1, hc, rfl⟩, ?_⟩
  exact clear_fits depth _ [] ⟨hs.1, Seg.nil _, rfl⟩ (Nat.zero_le _)

theorem C8_clear_resets_unless_chain_too_long_witness :
    HasContents sampleDup [1, 7, 2, 7] ∧
    ((([1, 7, 2, 7] : List Int).length ≤ 3 →
      ∃ s2, clear 3 sampleDup = .ok s2 ∧ isEmpty s2 = true ∧ getSize s2 = 0 ∧
        s2.list = LinkedList.new ∧ contents s2 = .ok [] ∧ HasContents s2 [] ∧
        clear 3 s2 = .ok s2) ∧
    (3 < ([1, 7, 2, 7] : List Int).length → clear 3 sampleDup = .error .stackOverflow)) :=
  ⟨by decide, C8_clear_resets_unless_chain_too_long 3 sampleDup [1, 7, 2, 7] (by decide)⟩

/-- Claim C9: in every state reached from a newly constructed list by a finite
sequence of `insertHead`, `insertTail`, `deleteValue` and `clear` calls,
`isEmpty()` returns `true` if and only if `getSize()` is `0`; this holds
whatever room the call stack has for the destructor calls of `clear`. -/
theorem C9_isEmpty_iff_size_zero [DecidableEq T] (depth : Nat) (ops : List (Op T))
    (s : State T) (h : run depth ops (State.init T) = .ok s) :
    isEmpty s = true ↔ getSize s = 0 := by
  obtain ⟨cs, hinv⟩ := run_preserves depth ops (State.init T) s [] init_inv h
  exact inv_isEmpty_iff s cs hinv

theorem C9_isEmpty_iff_size_zero_witness :
    run 3 (scenarioOps ++ [Op.clear]) (State.init Int) = .ok scenarioCleared ∧
    (isEmpty scenarioCleared = true ↔ getSize scenarioCleared = 0) :=
  ⟨by decide,
    C9_isEmpty_iff_size_zero 3 (scenarioOps ++ [Op.clear]) scenarioCleared (by decide)⟩

/-- Claim C10: the scenario of `runTests` holds step by step on a list of
integers: from the empty list, `insertHead(3)`, `insertHead(2)`,
`insertHead(1)` give `[1, 2, 3]` and size 3; `insertTail(4)`, `insertTail(5)`
give `[1, 2, 3, 4, 5]` and size 5; `deleteValue(3)` returns `true` and gives
`[1, 2, 4, 5]`, size 4; `deleteValue(1)` returns `true` and gives `[2, 4, 5]`,
size 3; `clear()`, which needs room on the call stack for three nested
destructor calls, gives `[]`, size 0 and `isEmpty()` true. -/
theorem C10_end_to_end_scenario (depth : Nat) (hd : 3 ≤ depth) :
    ∃ s1 s2 s3 s4 s5 s6 s7 s8 : State Int,
      insertHead 3 (State.init Int) = .ok s1 ∧ insertHead 2 s1 = .ok s2 ∧
      insertHead 1 s2 = .ok s3 ∧ contents s3 = .ok [1, 2, 3] ∧ getSize s3 = 3 ∧
      insertTail 4 s3 = .ok s4 ∧ insertTail 5 s4 = .ok s5 ∧
      contents s5 = .ok [1, 2, 3, 4, 5] ∧ getSize s5 = 5 ∧
      deleteValue 3 s5 = .ok (true, s6) ∧ contents s6 = .ok [1, 2, 4, 5] ∧ getSize s6 = 4 ∧
      deleteValue 1 s6 = .ok (true, s7) ∧ contents s7 = .ok [2, 4, 5] ∧ getSize s7 = 3 ∧
      clear depth s7 = .ok s8 ∧
      contents s8 = .ok [] ∧ getSize s8 = 0 ∧ isEmpty s8 = true := by
  obtain ⟨d, rfl⟩ : ∃ d, depth = d + 3 := ⟨depth - 3, by omega⟩
  refine ⟨_, _, _, _, _, _, scenarioEnd, scenarioCleared, rfl, rfl, rfl, rfl, rfl, rfl, rfl,
    rfl, rfl, rfl, rfl, rfl, rfl, rfl, rfl, ?_, rfl, rfl, rfl⟩
  simp [clear, release, scenarioEnd, scenarioCleared, deref, bind, Except.bind, pure,
    Except.pure]

theorem C10_end_to_end_scenario_witness :
    3 ≤ 3 ∧
    ∃ s1 s2 s3 s4 s5 s6 s7 s8 : State Int,
      insertHead 3 (State.init Int) = .ok s1 ∧ insertHead 2 s1 = .ok s2 ∧
      insertHead 1 s2 = .ok s3 ∧ contents s3 = .ok [1, 2, 3] ∧ getSize s3 = 3 ∧
      insertTail 4 s3 = .ok s4 ∧ insertTail 5 s4 = .ok s5 ∧
      contents s5 = .ok [1, 2, 3, 4, 5] ∧ getSize s5 = 5 ∧
      deleteValue 3 s5 = .ok (true, s6) ∧ contents s6 = .ok [1, 2, 4, 5] ∧ getSize s6 = 4 ∧
      deleteValue 1 s6 = .ok (true, s7) ∧ contents s7 = .ok [2, 4, 5] ∧ getSize s7 = 3 ∧
      clear 3 s7 = .ok s8 ∧
      contents s8 = .ok [] ∧ getSize s8 = 0 ∧ isEmpty s8 = true :=
  ⟨by decide, C10_end_to_end_scenario 3 (by decide)⟩

/-- Claim C11: in a list state with contents `xs`, `display()` writes, for
the empty list, the literal `List is empty`, and otherwise the textual forms
of the elements in list order with `" -> "` between each adjacent pair and
nothing before the first or after the last; either line is ended by
`std::endl`. `display()` leaves the state as it was. -/
theorem C11_display_renders_contents (render : T → String) (s : State T) (xs : List T)
    (hs : HasContents s xs) :
    (xs = [] → display render s = .ok (["List is empty", "\n"], s)) ∧
    (xs ≠ [] →
      display render s = .ok ((xs.map render).intersperse " -> " ++ ["\n"], s)) :=
  display_contents render s xs hs

theorem C11_display_renders_contents_witness :
    HasContents sampleDup [1, 7, 2, 7] ∧
    ((([1, 7, 2, 7] : List Int) = [] →
        display (fun i : Int => toString i) sampleDup = .ok (["List is empty", "\n"], sampleDup)) ∧
      (([1, 7, 2, 7] : List Int) ≠ [] →
        display (fun i : Int => toString i) sampleDup =
          .ok ((([1, 7, 2, 7] : List Int).map (fun i : Int => toString i)).intersperse " -> "
            ++ ["\n"], sampleDup))) :=
  ⟨by decide,
    C11_display_renders_contents (fun i : Int => toString i) sampleDup [1, 7, 2, 7] (by decide)⟩

/-- Claim C13: in every list state, empty, single-element or longer, and for
every argument, `deleteValue`, `search` and `display` return normally, and so
do `insertHead` and `insertTail` while the store has room, the only other
outcome being `std::bad_alloc` from `std::make_shared`: no null or dangling
link is dereferenced and every loop terminates. `getSize` and `isEmpty`
dereference nothing and have no loop. `clear` returns, leaving a list state,
when the chain is no longer than the nested `~Node` calls the call stack has
room for; on a longer chain it runs out of stack and does not return, which
is where the code does not do what the claim says. -/
theorem C13_members_complete_unless_clear_too_deep [DecidableEq T] (depth : Nat)
    (s : State T) (xs : List T) (hs : HasContents s xs) :
    (∀ v, (s.heap.length < MAX_CELLS →
        ∃ s2, insertHead v s = .ok s2 ∧ HasContents s2 (v :: xs)) ∧
      (¬ s.heap.length < MAX_CELLS → insertHead v s = .error .badAlloc)) ∧
    (∀ v, (s.heap.length < MAX_CELLS →
        ∃ s2, insertTail v s = .ok s2 ∧ HasContents s2 (xs ++ [v])) ∧
      (¬ s.heap.length < MAX_CELLS → insertTail v s = .error .badAlloc)) ∧
    (∀ x, ∃ b s2, deleteValue x s = .ok (b, s2) ∧ HasContents s2 (xs.erase x)) ∧
    (∀ x, ∃ b, search x s = .ok b) ∧
    (∀ render : T → String, ∃ items, display render s = .ok (items, s)) ∧
    (xs.length ≤ depth → ∃ s2, clear depth s = .ok s2 ∧ HasContents s2 []) ∧
    (depth < xs.length → clear depth s = .error .stackOverflow) ∧
    getSize s = xs.length ∧ (isEmpty s = true ↔ xs = []) := by
  obtain ⟨cs, hinv, hmap⟩ := (hasContents_iff s _).mp hs
  have hlen : cs.length = xs.length := by rw [← hmap, List.length_map]
  refine ⟨fun v => ⟨fun hroom => ?_, insertHead_full v s⟩,
    fun v => ⟨fun hroom => ?_, insertTail_full v s⟩, fun x => ?_, fun x => ?_,
    fun render => ?_, fun hd => ?_, fun hd => clear_overflows depth s cs hinv (by omega),
    hs.2.2, ?_⟩
  · obtain ⟨s2, h1, h2, _⟩ := insertHead_contents v s xs hs hroom
    exact ⟨s2, h1, h2⟩
  · obtain ⟨s2, h1, h2, _⟩ := insertTail_contents v s xs hs hroom
    exact ⟨s2, h1, h2⟩
  · obtain ⟨s2, h1, h2⟩ := deleteValue_erase s xs x hs
    exact ⟨_, s2, h1, h2⟩
  · exact ⟨_, search_contents s xs x hs⟩
  · by_cases hx : xs = []
    · exact ⟨_, (display_contents render s xs hs).1 hx⟩
    · exact ⟨_, (display_contents render s xs hs).2 hx⟩
  · exact ⟨_, clear_fits depth s cs hinv (by omega), hs.1, rfl, rfl⟩
  · rw [inv_isEmpty_iff s cs hinv, hs.2.2]
    exact List.length_eq_zero

theorem C13_members_complete_unless_clear_too_deep_witness :
    HasContents sampleDup [1, 7, 2, 7] ∧
    ((∀ v, (sampleDup.heap.length < MAX_CELLS →
        ∃ s2, insertHead v sampleDup = .ok s2 ∧ HasContents s2 (v :: [1, 7, 2, 7])) ∧
      (¬ sampleDup.heap.length < MAX_CELLS → insertHead v sampleDup = .error .badAlloc)) ∧
    (∀ v, (sampleDup.heap.length < MAX_CELLS →
        ∃ s2, insertTail v sampleDup = .ok s2 ∧ HasContents s2 ([1, 7, 2, 7] ++ [v])) ∧
      (¬ sampleDup.heap.length < MAX_CELLS → insertTail v sampleDup = .error .badAlloc)) ∧
    (∀ x, ∃ b s2, deleteValue x sampleDup = .ok (b, s2) ∧
      HasContents s2 (([1, 7, 2, 7] : List Int).erase x)) ∧
    (∀ x, ∃ b, search x sampleDup = .ok b) ∧
    (∀ render : Int → String, ∃ items, display render sampleDup = .ok (items, sampleDup)) ∧
    (([1, 7, 2, 7] : List Int).length ≤ 2 →
      ∃ s2, clear 2 sampleDup = .ok s2 ∧ HasContents s2 []) ∧
    (2 < ([1, 7, 2, 7] : List Int).length → clear 2 sampleDup = .error .stackOverflow) ∧
    getSize sampleDup = ([1, 7, 2, 7] : List Int).length ∧
    (isEmpty sampleDup = true ↔ ([1, 7, 2, 7] : List Int) = [])) :=
  ⟨by decide,
    C13_members_complete_unless_clear_too_deep 2 sampleDup [1, 7, 2, 7] (by decide)⟩

/-- Claim C14: after a `deleteValue(x)` that returned `true`, `search(y)` for
every `y` other than `x` returns what it returned before the call, and
`search(x)` returns `true` if and only if `x` occurred at least twice before
the call, so it returns `false` when `x` occurred exactly once. -/
theorem C14_search_after_deleteValue [DecidableEq T] (s s2 : State T) (xs : List T) (x : T)
    (hs : HasContents s xs) (hd : deleteValue x s = .ok (true, s2)) :
    (∀ y, y ≠ x → search y s2 = search y s) ∧
    search x s2 = .ok (decide (2 ≤ xs.count x)) ∧
    (xs.count x = 1 → search x s2 = .ok false) := by
  obtain ⟨s3, hdel, hs3⟩ := deleteValue_erase s xs x hs
  rw [hdel, Except.ok.injEq, Prod.mk.injEq] at hd
  obtain ⟨hmem, rfl⟩ := hd
  have hx : x ∈ xs := of_decide_eq_true hmem
  have hsx : search x s3 = .ok (decide (2 ≤ xs.count x)) := by
    rw [search_contents s3 _ x hs3]
    congr 1
    have hc := List.count_erase_self x xs
    have hp := @List.count_pos_iff _ _ _ x (xs.erase x)
    rw [decide_eq_decide, ← hp, hc]
    omega
  refine ⟨fun y hy => ?_, hsx, fun h1 => ?_⟩
  · rw [search_contents s3 _ y hs3, search_contents s xs y hs]
    congr 1
    rw [decide_eq_decide]
    exact List.mem_erase_of_ne hy
  · rw [hsx, h1]
    rfl

theorem C14_search_after_deleteValue_witness :
    (HasContents sampleDup [1, 7, 2, 7] ∧
      deleteValue 7 sampleDup = .ok (true, sampleDupDeleted)) ∧
    ((∀ y : Int, y ≠ 7 → search y sampleDupDeleted = search y sampleDup) ∧
      search 7 sampleDupDeleted = .ok (decide (2 ≤ ([1, 7, 2, 7] : List Int).count 7)) ∧
      (([1, 7, 2, 7] : List Int).count 7 = 1 → search 7 sampleDupDeleted = .ok false)) :=
  ⟨⟨by decide, by decide⟩,
    C14_search_after_deleteValue sampleDup sampleDupDeleted [1, 7, 2, 7] 7 (by decide)
      (by decide)⟩

/-- Claim C15: in every list state, `insertHead(x)` followed at once by
`deleteValue(x)` returns `true` and restores the list: head, contents, order
and `getSize()` are what they were before the `insertHead`, whether or not
`x` already occurred in the list. -/
theorem C15_insertHead_then_deleteValue [DecidableEq T] (s : State T) (xs : List T) (x : T)
    (hs : HasContents s xs) (hroom : s.heap.length < MAX_CELLS) :
    ∃ s1 s2, insertHead x s = .ok s1 ∧ deleteValue x s1 = .ok (true, s2) ∧
      HasContents s2 xs ∧ contents s2 = contents s ∧ getSize s2 = getSize s ∧
      s2.list = s.list := by
  obtain ⟨s1, s2, h1, h2, h3, h4, h5⟩ := insertHead_deleteValue x s xs hs hroom
  exact ⟨s1, s2, h1, h2, h3, by rw [h3.2.1, hs.2.1], h4, h5⟩

theorem C15_insertHead_then_deleteValue_witness :
    (HasContents sampleDup [1, 7, 2, 7] ∧ sampleDup.heap.length < MAX_CELLS) ∧
    ∃ s1 s2, insertHead 7 sampleDup = .ok s1 ∧ deleteValue 7 s1 = .ok (true, s2) ∧
      HasContents s2 [1, 7, 2, 7] ∧ contents s2 = contents sampleDup ∧
      getSize s2 = getSize sampleDup ∧ s2.list = sampleDup.list :=
  ⟨⟨by decide, by decide⟩,
    C15_insertHead_then_deleteValue sampleDup [1, 7, 2, 7] 7 (by decide) (by decide)⟩

/-- Claim C16: in every list state with room for one more cell, after
`insertHead(v)` and likewise after `insertTail(v)`, `search(v)` returns
`true` and `search(w)` for every `w` other than `v` returns what it returned
before the insertion. -/
theorem C16_search_after_insert [DecidableEq T] (s : State T) (xs : List T) (v : T)
    (hs : HasContents s xs) (hroom : s.heap.length < MAX_CELLS) :
    (∃ s2, insertHead v s = .ok s2 ∧ search v s2 = .ok true ∧
      ∀ w, w ≠ v → search w s2 = search w s) ∧
    (∃ s2, insertTail v s = .ok s2 ∧ search v s2 = .ok true ∧
      ∀ w, w ≠ v → search w s2 = search w s) := by
  obtain ⟨s2, h1, h2, _⟩ := insertHead_contents v s xs hs hroom
  obtain ⟨s3, k1, k2, _⟩ := insertTail_contents v s xs hs hroom
  refine ⟨⟨s2, h1, ?_, fun w hw => ?_⟩, ⟨s3, k1, ?_, fun w hw => ?_⟩⟩
  · rw [search_contents s2 _ v h2]
    simp
  · rw [search_contents s2 _ w h2, search_contents s xs w hs]
    simp [hw]
  · rw [search_contents s3 _ v k2]
    simp
  · rw [search_contents s3 _ w k2, search_contents s xs w hs]
    simp [hw]

theorem C16_search_after_insert_witness :
    (HasContents sampleDup [1, 7, 2, 7] ∧ sampleDup.heap.length < MAX_CELLS) ∧
    ((∃ s2, insertHead 5 sampleDup = .ok s2 ∧ search 5 s2 = .ok true ∧
      ∀ w : Int, w ≠ 5 → search w s2 = search w sampleDup) ∧
    (∃ s2, insertTail 5 sampleDup = .ok s2 ∧ search 5 s2 = .ok true ∧
      ∀ w : Int, w ≠ 5 → search w s2 = search w sampleDup)) :=
  ⟨⟨by decide, by decide⟩,
    C16_search_after_insert sampleDup [1, 7, 2, 7] 5 (by decide) (by decide)⟩

/-- Claim C17: in every list state, the empty list included, with room for
two more cells, `insertHead(a)` then `insertTail(b)` yields the same contents
and the same `getSize()` as `insertTail(b)` then `insertHead(a)`: the
contents are `a`, the former contents, `b`. -/
theorem C17_insertHead_insertTail_commute (s : State T) (xs : List T) (a b : T)
    (hs : HasContents s xs) (hroom : s.heap.length + 2 ≤ MAX_CELLS) :
    ∃ s1 s2 t1 t2, insertHead a s = .ok s1 ∧ insertTail b s1 = .ok s2 ∧
      insertTail b s = .ok t1 ∧ insertHead a t1 = .ok t2 ∧
      contents s2 = contents t2 ∧ getSize s2 = getSize t2 ∧
      HasContents s2 (a :: xs ++ [b]) ∧ HasContents t2 (a :: xs ++ [b]) := by
  obtain ⟨s1, h1, hs1, hl1⟩ := insertHead_contents a s xs hs (by omega)
  obtain ⟨s2, h2, hs2, _⟩ := insertTail_contents b s1 _ hs1 (by omega)
  obtain ⟨t1, k1, ht1, kl1⟩ := insertTail_contents b s xs hs (by omega)
  obtain ⟨t2, k2, ht2, _⟩ := insertHead_contents a t1 _ ht1 (by omega)
  have e : a :: (xs ++ [b]) = a :: xs ++ [b] := rfl
  rw [e] at ht2
  exact ⟨s1, s2, t1, t2, h1, h2, k1, k2, by rw [hs2.2.1, ht2.2.1],
    by rw [hs2.2.2, ht2.2.2], hs2, ht2⟩

theorem C17_insertHead_insertTail_commute_witness :
    (HasContents (State.init Int) [] ∧ (State.init Int).heap.length + 2 ≤ MAX_CELLS) ∧
    ∃ s1 s2 t1 t2, insertHead 1 (State.init Int) = .ok s1 ∧ insertTail 2 s1 = .ok s2 ∧
      insertTail 2 (State.init Int) = .ok t1 ∧ insertHead 1 t1 = .ok t2 ∧
      contents s2 = contents t2 ∧ getSize s2 = getSize t2 ∧
      HasContents s2 (1 :: [] ++ [2]) ∧ HasContents t2 (1 :: [] ++ [2]) :=
  ⟨⟨by decide, by decide⟩,
    C17_insertHead_insertTail_commute (State.init Int) [] 1 2 (by decide) (by decide)⟩

/-- Claim C12, amended: in every world reached from no list at all by
constructing lists and calling `insertHead`, `insertTail`, `deleteValue` and
`clear` on them, without copying a list, no cell is reachable from two
different lists and every live cell has exactly one owner, which is the list
header for the first cell of a list and the cell before it otherwise; every
further call of a mutating member function leads to such a world again. -/
theorem C12_single_owner_without_copy [DecidableEq T] (depth : Nat) (ops : List (WOp T))
    (w : World T) (hnc : ∀ op ∈ ops, op.isCopy = false)
    (h : wrun depth ops (World.init T) = .ok w) :
    w.SingleOwner ∧
    (∀ (i : Nat) (l : LinkedList) (cs : List (Nat × T)) (k a : Nat) (o : Owner),
      w.lists[i]? = some l → cells (State.mk w.heap l) = .ok cs →
      (cs.map Prod.fst)[k]? = some a →
      (w.Owns o a ↔ ownerAt i (cs.map Prod.fst) k = some o)) ∧
    (∀ (d : Nat) (i : Nat) (op : Op T) (w2 : World T),
      wstep d (WOp.call i op) w = .ok w2 → w2.SingleOwner) := by
  have hw := wrun_winv depth ops (World.init T) w winv_init hnc h
  refine ⟨singleOwner_of_winv w hw, ?_, ?_⟩
  · intro i l cs k a o hl hcs hk
    exact owns_iff_ownerAt w hw i l cs hl hcs k a hk o
  · intro d i op w2 hstep
    exact singleOwner_of_winv w2 (wstep_winv d (WOp.call i op) w w2 hw rfl hstep)

theorem C12_single_owner_without_copy_witness :
    ((∀ op ∈ twoListProgram, op.isCopy = false) ∧
      wrun 8 twoListProgram (World.init Int) = .ok twoListWorld) ∧
    (twoListWorld.SingleOwner ∧
    (∀ (i : Nat) (l : LinkedList) (cs : List (Nat × Int)) (k a : Nat) (o : Owner),
      twoListWorld.lists[i]? = some l → cells (State.mk twoListWorld.heap l) = .ok cs →
      (cs.map Prod.fst)[k]? = some a →
      (twoListWorld.Owns o a ↔ ownerAt i (cs.map Prod.fst) k = some o)) ∧
    (∀ (d : Nat) (i : Nat) (op : Op Int) (w2 : World Int),
      wstep d (WOp.call i op) twoListWorld = .ok w2 → w2.SingleOwner)) :=
  ⟨⟨by decide, by decide⟩,
    C12_single_owner_without_copy 8 twoListProgram twoListWorld (by decide) (by decide)⟩

/-- Claim C12 as stated fails: the implicitly defined copy constructor is a
public operation, and after `LinkedList<int> a; a.insertHead(1);
LinkedList<int> b(a);` the cell at address `0` is reachable from both lists
and is owned by the header of each. -/
theorem C12_copy_shares_cells :
    (∀ depth, wrun depth copyProgram (World.init Int) = .ok copyWorld) ∧
    ¬ copyWorld.SingleOwner ∧
    (0 ∈ copyWorld.reachFrom 0 ∧ 0 ∈ copyWorld.reachFrom 1) ∧
    (copyWorld.Owns (Owner.header 0) 0 ∧ copyWorld.Owns (Owner.header 1) 0) :=
  ⟨fun _ => rfl, fun h => h.1 0 1 0 (by decide) (by decide) (by decide),
    ⟨by decide, by decide⟩, ⟨by decide, by decide⟩⟩

end Claims

end LinkedListModel
